import Mathlib

/-!
Verification of the DSA-Vision visualizer repository.

Each algorithm of the repository is shallowly embedded as a pure Lean
function translated from the TypeScript source.  UI bookkeeping
(`setComparing`, `setCurrentStep`, rendering) has no effect on the data
and is dropped; the data mutations, the comparison/swap counters and the
user-visible messages are modelled exactly.  Loops of the source become
structural recursions whose recursion argument counts the loop
iterations, so all definitions are executable and reduce in the kernel.
-/

namespace DSA

open scoped List

/-! ## Sorting (SortingVisualizer, src/unnamed/part_003)

`bubbleSort` in the source is
`for i in [0, n) : for j in [0, n-i-1) : compare a[j] a[j+1], swap if >`.
A run of the inner loop with bound `b` performs `b` adjacent
compare/swap steps starting at index 0; `bubblePass l b` is that inner
loop (the fuel argument `b` is the number of remaining iterations, the
position `j` is the head of the list being recursed on).  The outer loop
performs passes with bounds `n-1, n-2, …, 0`; `bubbleAux` replays them.
-/

/-- Inner loop of `bubbleSort`: `b` adjacent compare-and-swap steps from
the left end of the list (`j` = 0 … b-1). -/
def bubblePass : List Int → Nat → List Int
  | l, 0 => l
  | [], _ + 1 => []
  | [x], _ + 1 => [x]
  | x :: y :: rest, b + 1 =>
    if x > y then y :: bubblePass (x :: rest) b
    else x :: bubblePass (y :: rest) b

/-- Outer loop of `bubbleSort`: passes with bounds `k, k-1, …, 0`. -/
def bubbleAux : List Int → Nat → List Int
  | a, 0 => bubblePass a 0
  | a, k + 1 => bubbleAux (bubblePass a (k + 1)) k

/-- `bubbleSort` of the source (uncancelled run), data component. -/
def bubbleSort (l : List Int) : List Int := bubbleAux l (l.length - 1)

/-- Inner bubble loop instrumented with the `incComp`/`incSwap` counters
of the source: returns (list, comparisons, swaps). -/
def bubblePassStats : List Int → Nat → List Int × Nat × Nat
  | l, 0 => (l, 0, 0)
  | [], _ + 1 => ([], 0, 0)
  | [x], _ + 1 => ([x], 0, 0)
  | x :: y :: rest, b + 1 =>
    if x > y then
      let r := bubblePassStats (x :: rest) b
      (y :: r.1, r.2.1 + 1, r.2.2 + 1)
    else
      let r := bubblePassStats (y :: rest) b
      (x :: r.1, r.2.1 + 1, r.2.2)

/-- Outer bubble loop accumulating the counters. -/
def bubbleAuxStats : List Int → Nat → Nat × Nat → List Int × Nat × Nat
  | a, 0, (c, s) =>
    let r := bubblePassStats a 0
    (r.1, c + r.2.1, s + r.2.2)
  | a, k + 1, (c, s) =>
    let r := bubblePassStats a (k + 1)
    bubbleAuxStats r.1 k (c + r.2.1, s + r.2.2)

/-- A full uncancelled `bubbleSort` run: final array, comparison counter,
swap counter (the values published by `setComparisons`/`setSwapCount`). -/
def bubbleStats (l : List Int) : List Int × Nat × Nat :=
  bubbleAuxStats l (l.length - 1) (0, 0)

/-- A bubble-sort run at a given speed setting.  In the source the speed
only feeds the `setTimeout` delay inside `delay()`; it is never read by
the algorithm, so the run result does not depend on it. -/
def bubbleRunAtSpeed (_speed : Nat) (l : List Int) : List Int × Nat × Nat :=
  bubbleStats l

/-- Inner `while (j > 0 && a[j] < a[j-1]) swap` loop of `insertionSort`,
acting on the reversed prefix (the element left of `x` is the head). -/
def insRev : List Int → Int → List Int
  | [], x => [x]
  | y :: ys, x => if x < y then y :: insRev ys x else x :: y :: ys

/-- One iteration of the outer `insertionSort` loop: move `a[i]` left by
adjacent swaps while it is smaller than its left neighbour. -/
def insertStep (p : List Int) (x : Int) : List Int := (insRev p.reverse x).reverse

/-- `insertionSort` of the source (uncancelled run). -/
def insertionSort (l : List Int) : List Int := l.foldl insertStep []

/-- Inner scan of `selectionSort`: `for j : if a[j] < a[min] min := j`.
`m` is the value at the current best index `best`, `j` the index of the
head of the remaining list. -/
def minIdxAux : List Int → Int → Nat → Nat → Nat
  | [], _, _, best => best
  | y :: ys, m, j, best =>
    if y < m then minIdxAux ys y (j + 1) j else minIdxAux ys m (j + 1) best

/-- Index of the first minimum of a list (0 for `[]`), as computed by the
`min` scan of `selectionSort`. -/
def minIdx : List Int → Nat
  | [] => 0
  | x :: xs => minIdxAux xs x 1 0

/-- `selectionSort` of the source (uncancelled run): find the first
minimum of the unsorted suffix, swap it with its first element
(`if (min !== i) swap`), recurse on the rest. -/
def selectionSort : List Int → List Int
  | [] => []
  | x :: xs =>
    let k := minIdx (x :: xs)
    if k = 0 then x :: selectionSort xs
    else (x :: xs).getD k 0 :: selectionSort (xs.set (k - 1) x)
termination_by l => l.length
decreasing_by
  · simp
  · simp

/-- The merge loop of `mergeSort` (`left[i] <= right[j]` takes from the
left, then the two copy loops). -/
def merge : List Int → List Int → List Int
  | [], ys => ys
  | xs, [] => xs
  | x :: xs, y :: ys =>
    if x ≤ y then x :: merge xs (y :: ys) else y :: merge (x :: xs) ys
termination_by xs ys => xs.length + ys.length

/-- `mergeSort` of the source (uncancelled run).  The helper recursion on
`[start, end]` splits at `mid = ⌊(start+end)/2⌋`, i.e. the left slice
holds the first `⌈n/2⌉` elements of the range; ranges of length ≤ 1 are
returned unchanged. -/
def mergeSort (l : List Int) : List Int :=
  if l.length ≤ 1 then l
  else
    merge (mergeSort (l.take ((l.length + 1) / 2)))
      (mergeSort (l.drop ((l.length + 1) / 2)))
termination_by l.length
decreasing_by
  · simp only [List.length_take]
    omega
  · simp only [List.length_drop]
    omega

/-- `quickSort` of the source (uncancelled run).  The source picks
`a[high]` as pivot and Lomuto-partitions the range in place: the scan
moves exactly the elements strictly below the pivot (in scan order) in
front of it and leaves the remaining elements behind it, then recurses
on `[low, i]` and `[i+2, high]`.  The two recursive calls therefore
receive exactly the elements `< pivot` (in their original order) and the
elements `≥ pivot` of `l.dropLast`. -/
def quickSort : List Int → List Int
  | [] => []
  | [x] => [x]
  | x :: y :: rest =>
    let p := (x :: y :: rest).getLast (by simp)
    let ini := (x :: y :: rest).dropLast
    quickSort (ini.filter (fun a => a < p)) ++
      p :: quickSort (ini.filter (fun a => ¬ a < p))
termination_by l => l.length
decreasing_by
  · have := List.length_filter_le
      (fun a => decide (a < (x :: y :: rest).getLast (by simp)))
      (x :: y :: rest).dropLast
    simp_all
    omega
  · have := List.length_filter_le
      (fun a => decide (¬ a < (x :: y :: rest).getLast (by simp)))
      (x :: y :: rest).dropLast
    simp_all
    omega

/-! ## Heap (src/src/pages/HeapVisualizer.tsx)

The heap is a `number[]` viewed as a complete binary tree
(`parent(i) = ⌊(i-1)/2⌋`, children `2i+1`, `2i+2`).  The comparator
`compare(a, b)` is `a < b` for a min-heap and `a > b` for a max-heap.
The `while` loops of `insert` (sift-up) and `extract`/`buildHeap`
(sift-down) are modelled with an explicit iteration-count argument:
sift-up moves from `i` to `parent(i)`, so `i + 1` iterations always
suffice; sift-down moves to a child `> i` bounded by the length, so
`length + 1` iterations always suffice.  The fuel never runs out on the
calls the model makes. -/

/-- The two heap flavours offered by the visualizer. -/
inductive Ht where
  | min
  | max
deriving DecidableEq, Repr

/-- `compare` of the heap visualizer: `a < b` (min-heap) or `a > b`
(max-heap). -/
def hcmp : Ht → Int → Int → Bool
  | Ht.min, a, b => a < b
  | Ht.max, a, b => a > b

/-- The heap-order relation between a parent and a child value:
parent ≤ child for a min-heap, parent ≥ child for a max-heap
(equivalently, the negation of `hcmp child parent`). -/
def hrel : Ht → Int → Int → Prop
  | Ht.min, p, c => p ≤ c
  | Ht.max, p, c => c ≤ p

instance (ht : Ht) (p c : Int) : Decidable (hrel ht p c) :=
  match ht with
  | Ht.min => inferInstanceAs (Decidable (p ≤ c))
  | Ht.max => inferInstanceAs (Decidable (c ≤ p))

/-- `[arr[i], arr[j]] = [arr[j], arr[i]]` — the `swap` helper of the
heap visualizer. -/
def swapL (a : List Int) (i j : Nat) : List Int :=
  (a.set i (a.getD j 0)).set j (a.getD i 0)

/-- `Parent(i) = ⌊(i-1)/2⌋`. -/
def par (j : Nat) : Nat := (j - 1) / 2

/-- The heap invariant as the spec states it: for every index whose
child indices are in range, the comparator relation holds between parent
and children. -/
def heapProp (ht : Ht) (a : List Int) : Prop :=
  ∀ i, i < a.length →
    (2 * i + 1 < a.length → hrel ht (a.getD i 0) (a.getD (2 * i + 1) 0)) ∧
    (2 * i + 2 < a.length → hrel ht (a.getD i 0) (a.getD (2 * i + 2) 0))

instance (ht : Ht) (a : List Int) : Decidable (heapProp ht a) := by
  unfold heapProp
  infer_instance

/-- The heap invariant restricted to the pairs whose parent index is at
least `k` (child-indexed form; `hpFrom ht a 0` is the full invariant). -/
def hpFrom (ht : Ht) (a : List Int) (k : Nat) : Prop :=
  ∀ j, 0 < j → j < a.length → k ≤ par j →
    hrel ht (a.getD (par j) 0) (a.getD j 0)

/-- The `while (i > 0)` sift-up loop of `insert`; the first argument
counts remaining iterations (`i + 1` always suffices since `i` strictly
decreases). -/
def siftUpAux (ht : Ht) : Nat → List Int → Nat → List Int
  | 0, a, _ => a
  | fuel + 1, a, i =>
    if i = 0 then a
    else if hcmp ht (a.getD i 0) (a.getD (par i) 0) then
      siftUpAux ht fuel (swapL a i (par i)) (par i)
    else a

/-- Sift-up from index `i`. -/
def siftUp (ht : Ht) (a : List Int) (i : Nat) : List Int :=
  siftUpAux ht (i + 1) a i

/-- `insert` of the heap visualizer: append, then sift the new last
element up. -/
def heapInsert (ht : Ht) (a : List Int) (v : Int) : List Int :=
  siftUp ht (a ++ [v]) a.length

/-- The target computation of one sift-down iteration: `target := i`,
promoted to the left child and then the right child whenever the child
is in range and beats the current target under `compare`. -/
def sdTarget (ht : Ht) (a : List Int) (i : Nat) : Nat :=
  let l := 2 * i + 1
  let r := 2 * i + 2
  let t1 := if l < a.length ∧ hcmp ht (a.getD l 0) (a.getD i 0) then l else i
  if r < a.length ∧ hcmp ht (a.getD r 0) (a.getD t1 0) then r else t1

/-- The sift-down loop shared by `extract` and `buildHeap`: pick the
best of `i` and its in-range children, stop if it is `i`, else swap and
continue from the child. -/
def siftDownAux (ht : Ht) : Nat → List Int → Nat → List Int
  | 0, a, _ => a
  | fuel + 1, a, i =>
    if sdTarget ht a i = i then a
    else siftDownAux ht fuel (swapL a i (sdTarget ht a i)) (sdTarget ht a i)

/-- Sift-down from index `i` (`length + 1` iterations always suffice
since the index strictly increases and stays in range). -/
def siftDown (ht : Ht) (a : List Int) (i : Nat) : List Int :=
  siftDownAux ht (a.length + 1) a i

/-- `extract` of the heap visualizer: guarded no-op on the empty heap,
otherwise overwrite the root with the last element, pop, and sift down
from the root. -/
def heapExtract (ht : Ht) (a : List Int) : List Int :=
  if a.length = 0 then a
  else siftDown ht ((a.set 0 (a.getD (a.length - 1) 0)).dropLast) 0

/-- The `for (i = ⌊n/2⌋ - 1; i >= 0; i--)` loop of `buildHeap`; the
argument is the number of remaining indices (`i + 1`). -/
def buildAux (ht : Ht) : List Int → Nat → List Int
  | a, 0 => a
  | a, k + 1 => buildAux ht (siftDown ht a k) k

/-- `buildHeap` of the heap visualizer: bottom-up sift-down from the
last non-leaf index down to the root. -/
def buildHeap (ht : Ht) (a : List Int) : List Int :=
  buildAux ht a (a.length / 2)

/-- `j` is an index in the subtree rooted at `i` (reflexive-transitive
closure of the child steps `j ↦ 2j+1`, `j ↦ 2j+2`). -/
inductive Desc : Nat → Nat → Prop where
  | refl (i : Nat) : Desc i i
  | left (i j : Nat) : Desc i j → Desc i (2 * j + 1)
  | right (i j : Nat) : Desc i j → Desc i (2 * j + 2)

/-! ## Cancellation traces (SortingVisualizer, src/unnamed/part_003)

`stopRef.current` is only mutated by the host between two `await delay()`
suspensions, so a run observes the flag flip during some delay:
`cancelAt` is the number of completed delays after which the flag reads
true.  Each loop-condition check that reads the flag as true emits a
`cancelObs` event and exits the loop, exactly as `!stopRef.current` in
the `for` conditions does (when a loop exits because its index bound
fails, `&&` short-circuits and the flag is not read).  `comp` and `swap`
events mirror `incComp`/`incSwap` and the in-place mutations. -/

/-- Observable events of a sorting run. -/
inductive Ev where
  | comp
  | swap
  | cancelObs
deriving DecidableEq, Repr

/-- Inner loop of `bubbleSort` under a cancellation schedule: arguments
are remaining iterations, array, completed delays, and `j`. -/
def bTrInner (cAt : Nat) : Nat → List Int → Nat → Nat → List Ev × List Int × Nat
  | 0, a, d, _ => ([], a, d)
  | rem + 1, a, d, j =>
    if cAt ≤ d then ([Ev.cancelObs], a, d)
    else if a.getD j 0 > a.getD (j + 1) 0 then
      let r := bTrInner cAt rem (swapL a j (j + 1)) (d + 1) (j + 1)
      (Ev.comp :: Ev.swap :: r.1, r.2)
    else
      let r := bTrInner cAt rem a (d + 1) (j + 1)
      (Ev.comp :: r.1, r.2)

/-- Outer loop of `bubbleSort` under a cancellation schedule (`rem`
iterations remain out of `n`). -/
def bTrOuter (cAt n : Nat) : Nat → List Int → Nat → List Ev × List Int × Nat
  | 0, a, d => ([], a, d)
  | rem + 1, a, d =>
    if cAt ≤ d then ([Ev.cancelObs], a, d)
    else
      let i := n - (rem + 1)
      let r := bTrInner cAt (n - i - 1) a d 0
      let r2 := bTrOuter cAt n rem r.2.1 r.2.2
      (r.1 ++ r2.1, r2.2)

/-- A `bubbleSort` run with cancellation requested during the
`cancelAt`-th delay: event trace, final array, delays. -/
def bubbleTrace (cAt : Nat) (l : List Int) : List Ev × List Int × Nat :=
  bTrOuter cAt l.length l.length l 0

/-- Inner `min`-scan of `selectionSort` under a cancellation schedule:
remaining iterations, array, delays, `j`, current `min` index.  The
array is not mutated by the scan; returns (events, min index, delays). -/
def sTrInner (cAt : Nat) : Nat → List Int → Nat → Nat → Nat → List Ev × Nat × Nat
  | 0, _, d, _, minI => ([], minI, d)
  | rem + 1, a, d, j, minI =>
    if cAt ≤ d then ([Ev.cancelObs], minI, d)
    else
      let minI' := if a.getD j 0 < a.getD minI 0 then j else minI
      let r := sTrInner cAt rem a (d + 1) (j + 1) minI'
      (Ev.comp :: r.1, r.2)

/-- Outer loop of `selectionSort` under a cancellation schedule.  As in
the source, the `if (min !== i) swap` after the scan runs regardless of
why the scan loop exited. -/
def sTrOuter (cAt n : Nat) : Nat → List Int → Nat → List Ev × List Int × Nat
  | 0, a, d => ([], a, d)
  | rem + 1, a, d =>
    if cAt ≤ d then ([Ev.cancelObs], a, d)
    else
      let i := n - (rem + 1)
      let r := sTrInner cAt (n - (i + 1)) a d (i + 1) i
      let s := if r.2.1 ≠ i then ([Ev.swap], swapL a i r.2.1) else ([], a)
      let r2 := sTrOuter cAt n rem s.2 r.2.2
      (r.1 ++ s.1 ++ r2.1, r2.2)

/-- A `selectionSort` run with cancellation requested during the
`cancelAt`-th delay. -/
def selTrace (cAt : Nat) (l : List Int) : List Ev × List Int × Nat :=
  sTrOuter cAt l.length l.length l 0

/-- The events that occur after the first observed cancellation. -/
def postCancel : List Ev → List Ev
  | [] => []
  | Ev.cancelObs :: rest => rest
  | Ev.comp :: rest => postCancel rest
  | Ev.swap :: rest => postCancel rest

/-- Number of comparison events. -/
def countComp (evs : List Ev) : Nat := evs.count Ev.comp

/-- Number of swap events. -/
def countSwap (evs : List Ev) : Nat := evs.count Ev.swap

/-! ## Stack, queue, hash table
(src/unnamed/part_004 StackVisualizer, src/src/pages/QueueVisualizer.tsx,
src/src/pages/HashTableVisualizer.tsx and src/unnamed/part_000)

Each operation acts on the data structure together with the
`message` state; all are total functions (no exceptions), except that
hash-table insert on a key whose bucket index is outside the table
models the JavaScript `undefined.includes` TypeError with `none`. -/

/-- `pop` of the stack visualizer: guarded no-op with an "empty" message
on the empty stack, otherwise remove the top (the last element). -/
def stackPop (st : List Int × String) : List Int × String :=
  if st.1.length = 0 then (st.1, "Stack is empty!")
  else (st.1.dropLast, s!"Popped {st.1.getD (st.1.length - 1) 0} from stack")

/-- `dequeue` of the queue visualizer: guarded no-op with an underflow
message on the empty queue, otherwise remove the front (index 0). -/
def queueDequeue (st : List Int × String) : List Int × String :=
  if st.1.length = 0 then (st.1, "Queue Underflow! Queue is empty.")
  else (st.1.tail, s!"Dequeued {st.1.getD 0 0} from front")

/-- `extract` of the heap visualizer together with its message state:
on the empty heap the handler returns before any `setMessage`, so the
message is left unchanged. -/
def heapExtractOp (ht : Ht) (st : List Int × String) : List Int × String :=
  if st.1.length = 0 then st
  else (heapExtract ht st.1,
    s!"Extracted {st.1.getD 0 0} — heap property restored")

/-- `hashFn(key) = key % 10` with JavaScript `%` (sign of the dividend,
i.e. truncated remainder). -/
def hashFn (key : Int) : Int := key.tmod 10

/-- The bucket `table[hashFn(v)]` that `v` hashes to; an out-of-range
index reads `undefined`, which contains nothing. -/
def bucketOf (t : List (List Int)) (v : Int) : List Int :=
  if 0 ≤ hashFn v ∧ (hashFn v).toNat < t.length then t.getD (hashFn v).toNat []
  else []

/-- `insert` of the hash-table visualizer: copy the table, push the key
onto its bucket unless the bucket already includes it.  Reading
`newTable[idx].includes` on an out-of-range index throws in JavaScript,
modelled by `none`. -/
def htInsert (t : List (List Int)) (v : Int) : Option (List (List Int)) :=
  if 0 ≤ hashFn v ∧ (hashFn v).toNat < t.length then
    some (if v ∈ t.getD (hashFn v).toNat [] then t
      else t.set (hashFn v).toNat (t.getD (hashFn v).toNat [] ++ [v]))
  else none

/-- The initial hash table: ten empty buckets, then `15,25,35,7,42`
pushed onto their buckets in order. -/
def htInit : List (List Int) :=
  [15, 25, 35, 7, 42].foldl
    (fun t v => t.set (hashFn v).toNat (t.getD (hashFn v).toNat [] ++ [v]))
    (List.replicate 10 [])

/-! ## Graph (src/unnamed/part_004 GraphVisualizer)

The graph is a node list (ids in insertion order) and an edge list;
adjacency is derived by scanning the edges in declaration order, pushing
`e.to` when `e.from` matches and `e.from` when `e.to` matches. -/

/-- An undirected weighted edge. -/
structure GEdge where
  efrom : Nat
  eto : Nat
  weight : Int
deriving DecidableEq

/-- `getNeighbors` with weights: scan the edges in declaration order. -/
def getNeighborsW (es : List GEdge) (v : Nat) : List (Nat × Int) :=
  es.foldl (fun acc e =>
    acc ++ (if e.efrom = v then [(e.eto, e.weight)] else []) ++
      (if e.eto = v then [(e.efrom, e.weight)] else [])) []

/-- Neighbor ids in edge-declaration order. -/
def getNeighbors (es : List GEdge) (v : Nat) : List Nat :=
  (getNeighborsW es v).map Prod.fst

/-- The `while (queue.length > 0)` loop of `runBFS`; the first argument
bounds the number of iterations (every node is enqueued at most once, so
any bound above the number of node ids is enough and the loop then stops
on the empty queue exactly as the source does).  Returns the dequeue
(visit) order. -/
def bfsAux (es : List GEdge) : Nat → List Nat → List Nat → List Nat → List Nat
  | 0, _, _, order => order
  | fuel + 1, queue, vis, order =>
    match queue with
    | [] => order
    | v :: qrest =>
      let st := (getNeighbors es v).foldl
        (fun (st : List Nat × List Nat) nb =>
          if nb ∈ st.2 then st else (st.1 ++ [nb], st.2 ++ [nb]))
        (qrest, vis)
      bfsAux es fuel st.1 st.2 (order ++ [v])

/-- `runBFS` from `start`: the queue holds `start`, which is marked
visited up front; each dequeued node is visited and its unvisited
neighbors are enqueued and marked. -/
def runBFS (es : List GEdge) (start : Nat) (fuel : Nat) : List Nat :=
  bfsAux es fuel [start] [start] []

/-- `DEFAULT_EDGES` of the graph visualizer. -/
def defaultEdges : List GEdge :=
  [⟨0, 1, 4⟩, ⟨0, 3, 2⟩, ⟨1, 2, 3⟩, ⟨1, 4, 1⟩, ⟨2, 5, 6⟩,
    ⟨3, 4, 5⟩, ⟨3, 6, 7⟩, ⟨4, 5, 2⟩, ⟨4, 6, 3⟩]

/-! ### Dijkstra (src/unnamed/part_004, `runDijkstra`)

`dist` is a JavaScript record: a key is `undefined` before seeding
(modelled `none`), `Infinity` (`some DVal.inf`) or a number.  The
comparisons mirror JavaScript: anything compared with `undefined` is
false; `Infinity < Infinity` is false. -/

/-- A distance value: `Infinity` or a number. -/
inductive DVal where
  | inf
  | val (n : Int)
deriving DecidableEq, Repr

/-- `dist[n.id] < minDist` — false when `dist[n.id]` is `undefined` or
not a number below `minDist`. -/
def ltD : Option DVal → DVal → Bool
  | none, _ => false
  | some DVal.inf, _ => false
  | some (DVal.val _), DVal.inf => true
  | some (DVal.val a), DVal.val b => a < b

/-- `newDist < dist[nb.id]` — false when `dist[nb.id]` is `undefined`. -/
def ltDD : Int → Option DVal → Bool
  | _, none => false
  | _, some DVal.inf => true
  | n, some (DVal.val b) => n < b

/-- The body of the node-selection scan of one Dijkstra iteration, from
an arbitrary accumulator (`u`, `minDist`). -/
def selectFold (vis : List Nat) (dist : Nat → Option DVal) (ns : List Nat)
    (acc : Option Nat × DVal) : Option Nat × DVal :=
  ns.foldl (fun acc n =>
    if n ∉ vis ∧ ltD (dist n) acc.2 then (some n, (dist n).getD DVal.inf)
    else acc) acc

/-- The node-selection scan of one Dijkstra iteration:
`minDist = Infinity, u = -1;` then for each node in array order, take it
when it is unvisited and strictly below the current minimum.  Returns
(`u`, `minDist`); `none` models `u === -1`. -/
def selectMin (ns : List Nat) (vis : List Nat) (dist : Nat → Option DVal) :
    Option Nat × DVal :=
  selectFold vis dist ns (none, DVal.inf)

/-- The relaxation loop over the neighbors of the selected node. -/
def relax (dist : Nat → Option DVal) (du : Int) (nbs : List (Nat × Int)) :
    Nat → Option DVal :=
  nbs.foldl (fun d nb =>
    if ltDD (du + nb.2) (d nb.1) then
      fun m => if m = nb.1 then some (DVal.val (du + nb.2)) else d m
    else d) dist

/-- The `for` loop of `runDijkstra`: select the minimum-distance
unvisited node (break on `u === -1`), mark it visited, relax its
neighbors.  State: (visited list, dist, finalization order).  A selected
node always has a finite distance (`ltD` only accepts numbers), so the
`DVal.inf` arm is dead code kept only for totality. -/
def dijkstraAux (ns : List Nat) (es : List GEdge) :
    Nat → List Nat × (Nat → Option DVal) × List Nat →
      List Nat × (Nat → Option DVal) × List Nat
  | 0, st => st
  | k + 1, (vis, dist, order) =>
    match (selectMin ns vis dist).1 with
    | none => (vis, dist, order)
    | some u =>
      match dist u with
      | none => (vis, dist, order)
      | some DVal.inf => (vis, dist, order)
      | some (DVal.val du) =>
        dijkstraAux ns es k
          (vis ++ [u], relax dist du (getNeighborsW es u), order ++ [u])

/-- `dist` seeding: every node id gets `Infinity`, then the start gets
`0`. -/
def initDist (ns : List Nat) (start : Nat) : Nat → Option DVal :=
  fun m =>
    if m = start then some (DVal.val 0)
    else if m ∈ ns then some DVal.inf
    else none

/-- A full `runDijkstra` run (`nodes.length` iterations). -/
def runDijkstra (ns : List Nat) (es : List GEdge) (start : Nat) :
    List Nat × (Nat → Option DVal) × List Nat :=
  dijkstraAux ns es ns.length ([], initDist ns start, [])

/-- The finalization (visit) order of a Dijkstra run. -/
def dijkstraOrder (ns : List Nat) (es : List GEdge) (start : Nat) : List Nat :=
  (runDijkstra ns es start).2.2

/-- `d` strictly exceeds the finite minimum `m` (in the JavaScript order
where `undefined` and `Infinity` exceed every number). -/
def dGt (d : Option DVal) (m : DVal) : Prop :=
  match d, m with
  | none, _ => True
  | some DVal.inf, _ => True
  | some (DVal.val _), DVal.inf => False
  | some (DVal.val a), DVal.val b => b < a

/-- `x` is strictly below `y` as distance values. -/
def dLt (x y : DVal) : Prop :=
  match x, y with
  | DVal.inf, _ => False
  | DVal.val _, DVal.inf => True
  | DVal.val a, DVal.val b => a < b

/-- `x ≤ y` as distance values. -/
def dLe (x y : DVal) : Prop :=
  match x, y with
  | _, DVal.inf => True
  | DVal.inf, DVal.val _ => False
  | DVal.val a, DVal.val b => a ≤ b

/-- The nodes of the Dijkstra counterexample graph: the default graph
after `addEdge(0,8,1)` and `addEdge(0,7,1)`, which appends the new node
ids in that order, so the scan order is not sorted by id. -/
def exNodes : List Nat := [0, 1, 2, 3, 4, 5, 6, 8, 7]

/-- The edges of the Dijkstra counterexample graph. -/
def exEdges : List GEdge := defaultEdges ++ [⟨0, 8, 1⟩, ⟨0, 7, 1⟩]

/-! ## Binary search tree (src/src/pages/BinaryTreeVisualizer.tsx) -/

/-- `TreeNode {value, left?, right?}` records. -/
inductive BTree where
  | leaf
  | node (value : Int) (left right : BTree)
deriving DecidableEq, Repr

/-- `insertBST`: smaller values go left, larger go right, an equal value
returns the tree unchanged. -/
def insertBST : BTree → Int → BTree
  | BTree.leaf, v => BTree.node v BTree.leaf BTree.leaf
  | BTree.node x l r, v =>
    if v < x then BTree.node x (insertBST l v) r
    else if x < v then BTree.node x l (insertBST r v)
    else BTree.node x l r

/-- `getTraversal(root, "inorder")`. -/
def inorder : BTree → List Int
  | BTree.leaf => []
  | BTree.node x l r => inorder l ++ [x] ++ inorder r

/-- `getTraversal(root, "preorder")`. -/
def preorder : BTree → List Int
  | BTree.leaf => []
  | BTree.node x l r => [x] ++ preorder l ++ preorder r

/-- `getTraversal(root, "postorder")`. -/
def postorder : BTree → List Int
  | BTree.leaf => []
  | BTree.node x l r => postorder l ++ postorder r ++ [x]

/-- The binary-search-tree ordering invariant (strict, matching
`insertBST`'s strict comparisons). -/
def isBST : BTree → Prop
  | BTree.leaf => True
  | BTree.node x l r =>
    (∀ y ∈ inorder l, y < x) ∧ (∀ y ∈ inorder r, x < y) ∧ isBST l ∧ isBST r

instance isBST_dec : (t : BTree) → Decidable (isBST t)
  | BTree.leaf => inferInstanceAs (Decidable True)
  | BTree.node x l r =>
    have := isBST_dec l
    have := isBST_dec r
    inferInstanceAs (Decidable (_ ∧ _ ∧ _ ∧ _))

/-- The tree built by inserting a list of values into the empty tree,
as every tree of the visualizer is. -/
def buildBST (vals : List Int) : BTree := vals.foldl insertBST BTree.leaf

/-- `s` occurs as a subtree of `t`. -/
inductive Subtree : BTree → BTree → Prop where
  | refl (t : BTree) : Subtree t t
  | left (s : BTree) (x : Int) (l r : BTree) :
      Subtree s l → Subtree s (BTree.node x l r)
  | right (s : BTree) (x : Int) (l r : BTree) :
      Subtree s r → Subtree s (BTree.node x l r)

/-! ## Theorems -/

/-- `merge` outputs a permutation of its two inputs appended. -/
theorem merge_perm (xs ys : List Int) : merge xs ys ~ xs ++ ys := by
  induction xs, ys using merge.induct with
  | case1 ys => simp [merge]
  | case2 xs h => rw [merge.eq_def]; cases xs <;> simp
  | case3 x xs y ys h ih =>
    rw [merge]
    simp only [if_pos h]
    exact ih.cons x
  | case4 x xs y ys h ih =>
    rw [merge]
    simp only [if_neg h]
    exact (ih.cons y).trans List.perm_middle.symm

/-- `merge` of two sorted lists is sorted. -/
theorem merge_sorted (xs ys : List Int) (hx : xs.Sorted (· ≤ ·))
    (hy : ys.Sorted (· ≤ ·)) : (merge xs ys).Sorted (· ≤ ·) := by
  induction xs, ys using merge.induct with
  | case1 ys => simpa [merge]
  | case2 xs h => rw [merge.eq_def]; cases xs <;> simp_all
  | case3 x xs y ys h ih =>
    rw [merge]
    simp only [if_pos h]
    rw [List.sorted_cons] at hx ⊢
    refine ⟨fun b hb => ?_, ih hx.2 hy⟩
    have hb' := (merge_perm xs (y :: ys)).mem_iff.mp hb
    rw [List.mem_append, List.mem_cons] at hb'
    rcases hb' with h' | rfl | h'
    · exact hx.1 _ h'
    · exact h
    · exact le_trans h ((List.sorted_cons.mp hy).1 _ h')
  | case4 x xs y ys h ih =>
    rw [merge]
    simp only [if_neg h]
    rw [List.sorted_cons] at hy ⊢
    refine ⟨fun b hb => ?_, ih hx hy.2⟩
    have hyx : y ≤ x := le_of_lt (lt_of_not_le h)
    have hb' := (merge_perm (x :: xs) ys).mem_iff.mp hb
    rw [List.mem_append, List.mem_cons] at hb'
    rcases hb' with (rfl | h') | h'
    · exact hyx
    · exact le_trans hyx ((List.sorted_cons.mp hx).1 _ h')
    · exact hy.1 _ h'

/-- `mergeSort` outputs a permutation of its input. -/
theorem mergeSort_perm (l : List Int) : mergeSort l ~ l := by
  induction l using mergeSort.induct with
  | case1 l h => rw [mergeSort, if_pos h]
  | case2 l h ih1 ih2 =>
    rw [mergeSort, if_neg h]
    calc merge (mergeSort (l.take ((l.length + 1) / 2)))
          (mergeSort (l.drop ((l.length + 1) / 2)))
        ~ mergeSort (l.take ((l.length + 1) / 2)) ++
            mergeSort (l.drop ((l.length + 1) / 2)) := merge_perm _ _
      _ ~ l.take ((l.length + 1) / 2) ++ l.drop ((l.length + 1) / 2) :=
          ih1.append ih2
      _ = l := List.take_append_drop _ _

/-- `mergeSort` outputs a sorted list. -/
theorem mergeSort_sorted (l : List Int) : (mergeSort l).Sorted (· ≤ ·) := by
  induction l using mergeSort.induct with
  | case1 l h =>
    rw [mergeSort, if_pos h]
    match l, h with
    | [], _ => exact List.sorted_nil
    | [x], _ => exact List.sorted_singleton x
  | case2 l h ih1 ih2 =>
    rw [mergeSort, if_neg h]
    exact merge_sorted _ _ ih1 ih2

/-- `quickSort` outputs a permutation of its input. -/
theorem quickSort_perm (l : List Int) : quickSort l ~ l := by
  induction l using quickSort.induct with
  | case1 => simp [quickSort]
  | case2 x => simp [quickSort]
  | case3 x y rest p ini ih1 ih2 =>
    rw [quickSort]
    calc quickSort (ini.filter (fun a => a < p)) ++
          p :: quickSort (ini.filter (fun a => ¬ a < p))
        ~ ini.filter (fun a => a < p) ++ p :: ini.filter (fun a => ¬ a < p) :=
          ih1.append (ih2.cons p)
      _ ~ p :: (ini.filter (fun a => a < p) ++ ini.filter (fun a => ¬ a < p)) :=
          List.perm_middle
      _ ~ p :: ini := by
          refine List.Perm.cons p ?_
          have hfun : (fun a : Int => decide (¬ a < p)) = fun a : Int => !decide (a < p) := by
            funext a
            exact decide_not
          rw [hfun]
          exact List.filter_append_perm (fun a => decide (a < p)) ini
      _ ~ ini ++ [p] := (List.perm_append_singleton p ini).symm
      _ = x :: y :: rest := List.dropLast_append_getLast (by simp)

/-- `quickSort` outputs a sorted list. -/
theorem quickSort_sorted (l : List Int) : (quickSort l).Sorted (· ≤ ·) := by
  induction l using quickSort.induct with
  | case1 => simp [quickSort]
  | case2 x => simp [quickSort]
  | case3 x y rest p ini ih1 ih2 =>
    rw [quickSort]
    have memlt : ∀ a ∈ quickSort (ini.filter (fun a => a < p)), a < p := by
      intro a ha
      have := (quickSort_perm _).mem_iff.mp ha
      simpa using (List.mem_filter.mp this).2
    have memge : ∀ a ∈ quickSort (ini.filter (fun a => ¬ a < p)), p ≤ a := by
      intro a ha
      have := (quickSort_perm _).mem_iff.mp ha
      have h2 := (List.mem_filter.mp this).2
      exact not_lt.mp (of_decide_eq_true h2)
    rw [List.Sorted, List.pairwise_append]
    refine ⟨ih1, ?_, ?_⟩
    · rw [List.pairwise_cons]
      exact ⟨memge, ih2⟩
    · intro a ha b hb
      rcases List.mem_cons.mp hb with rfl | hb
      · exact le_of_lt (memlt a ha)
      · exact le_trans (le_of_lt (memlt a ha)) (memge b hb)

/-- Reading a list at an in-range index with `getD` yields an element. -/
theorem getD_mem_of_lt (l : List Int) (i : Nat) (h : i < l.length) :
    l.getD i 0 ∈ l := by
  induction l generalizing i with
  | nil => simp at h
  | cons x xs ih =>
    cases i with
    | zero => simp
    | succ j =>
      simp only [List.getD_cons_succ]
      exact List.mem_cons_of_mem x (ih j (by simpa using h))

/-- Every element of a list is a `getD` at some in-range index. -/
theorem exists_getD_of_mem (l : List Int) (b : Int) (h : b ∈ l) :
    ∃ i, i < l.length ∧ l.getD i 0 = b := by
  induction l with
  | nil => simp at h
  | cons x xs ih =>
    rcases List.mem_cons.mp h with rfl | h'
    · exact ⟨0, by simp, rfl⟩
    · obtain ⟨i, hi, hv⟩ := ih h'
      exact ⟨i + 1, by simpa using hi, by simpa using hv⟩

/-- `insRev` inserts the new element: the result is a permutation of the
element consed on the old prefix. -/
theorem insRev_perm (ys : List Int) (x : Int) : insRev ys x ~ x :: ys := by
  induction ys with
  | nil => simp [insRev]
  | cons y ys ih =>
    rw [insRev]
    split
    · exact (ih.cons y).trans (List.Perm.swap x y ys)
    · exact List.Perm.refl _

/-- `insRev` preserves reverse-sortedness (the reversed prefix is
non-increasing). -/
theorem insRev_sorted (ys : List Int) (x : Int) (h : ys.Sorted (· ≥ ·)) :
    (insRev ys x).Sorted (· ≥ ·) := by
  induction ys with
  | nil => simp [insRev]
  | cons y ys ih =>
    rw [List.sorted_cons] at h
    rw [insRev]
    split
    · rename_i hxy
      rw [List.sorted_cons]
      refine ⟨fun b hb => ?_, ih h.2⟩
      rcases List.mem_cons.mp ((insRev_perm ys x).mem_iff.mp hb) with rfl | hb'
      · exact le_of_lt hxy
      · exact h.1 _ hb'
    · rename_i hxy
      rw [List.sorted_cons]
      refine ⟨fun b hb => ?_, List.sorted_cons.mpr h⟩
      rcases List.mem_cons.mp hb with rfl | hb'
      · exact not_lt.mp hxy
      · exact le_trans (h.1 _ hb') (not_lt.mp hxy)

/-- One insertion-sort step is a permutation of consing the element. -/
theorem insertStep_perm (p : List Int) (x : Int) : insertStep p x ~ x :: p := by
  unfold insertStep
  calc (insRev p.reverse x).reverse
      ~ insRev p.reverse x := List.reverse_perm _
    _ ~ x :: p.reverse := insRev_perm _ _
    _ ~ x :: p := (List.reverse_perm p).cons x

/-- One insertion-sort step preserves sortedness of the prefix. -/
theorem insertStep_sorted (p : List Int) (x : Int) (h : p.Sorted (· ≤ ·)) :
    (insertStep p x).Sorted (· ≤ ·) := by
  unfold insertStep
  rw [List.Sorted, List.pairwise_reverse]
  have hrev : p.reverse.Sorted (· ≥ ·) := by
    rw [List.Sorted, List.pairwise_reverse]
    exact h
  exact insRev_sorted p.reverse x hrev

/-- The insertion-sort fold is a permutation of the prefix appended with
the remaining input. -/
theorem foldl_insertStep_perm (l acc : List Int) :
    l.foldl insertStep acc ~ acc ++ l := by
  induction l generalizing acc with
  | nil => simp
  | cons x l ih =>
    calc (x :: l).foldl insertStep acc
        = l.foldl insertStep (insertStep acc x) := rfl
      _ ~ insertStep acc x ++ l := ih _
      _ ~ (x :: acc) ++ l := (insertStep_perm acc x).append_right l
      _ ~ acc ++ x :: l := List.perm_middle.symm

/-- The insertion-sort fold keeps the accumulator sorted. -/
theorem foldl_insertStep_sorted (l : List Int) :
    ∀ acc : List Int, acc.Sorted (· ≤ ·) →
      (l.foldl insertStep acc).Sorted (· ≤ ·) := by
  induction l with
  | nil => exact fun acc h => h
  | cons x l ih => exact fun acc h => ih _ (insertStep_sorted acc x h)

/-- `insertionSort` outputs a permutation of its input. -/
theorem insertionSort_perm (l : List Int) : insertionSort l ~ l := by
  have := foldl_insertStep_perm l []
  simpa [insertionSort] using this

/-- `insertionSort` outputs a sorted list. -/
theorem insertionSort_sorted (l : List Int) :
    (insertionSort l).Sorted (· ≤ ·) :=
  foldl_insertStep_sorted l [] List.sorted_nil

/-- Consing the element read at `j` onto the list with position `j`
overwritten by `x` permutes consing `x`: this is the swap of the
selection-sort step. -/
theorem getD_set_perm (xs : List Int) (j : Nat) (x : Int) (h : j < xs.length) :
    xs.getD j 0 :: xs.set j x ~ x :: xs := by
  induction xs generalizing j with
  | nil => simp at h
  | cons y ys ih =>
    cases j with
    | zero => exact List.Perm.swap x y ys
    | succ j =>
      simp only [List.getD_cons_succ, List.set_cons_succ]
      calc ys.getD j 0 :: y :: ys.set j x
          ~ y :: ys.getD j 0 :: ys.set j x := List.Perm.swap y _ _
        _ ~ y :: x :: ys := (ih j (by simpa using h)).cons y
        _ ~ x :: y :: ys := List.Perm.swap x y ys

/-- Invariant of the `min`-scan of `selectionSort`: relative to the full
list `l`, the scan over the suffix `ys` (whose entry `i` is `l`'s entry
`j + i`) starting from best index `best` holding value `m` returns an
in-range index whose value is a lower bound of `m` and of the suffix. -/
theorem minIdxAux_spec (l : List Int) (ys : List Int) :
    ∀ (m : Int) (j best : Nat),
      (∀ i, i < ys.length → l.getD (j + i) 0 = ys.getD i 0) →
      l.getD best 0 = m → best < j →
      (minIdxAux ys m j best < j + ys.length ∨ minIdxAux ys m j best = best) ∧
        l.getD (minIdxAux ys m j best) 0 ≤ m ∧
        ∀ i, i < ys.length → l.getD (minIdxAux ys m j best) 0 ≤ ys.getD i 0 := by
  induction ys with
  | nil =>
    intro m j best _ hbest _
    rw [minIdxAux]
    exact ⟨Or.inr rfl, le_of_eq hbest, fun i hi => by simp at hi⟩
  | cons y ys ih =>
    intro m j best hmap hbest hlt
    have hy : l.getD j 0 = y := by simpa using hmap 0 (by simp)
    have hshift : ∀ i, i < ys.length → l.getD (j + 1 + i) 0 = ys.getD i 0 := by
      intro i hi
      have heq : j + 1 + i = j + (i + 1) := by omega
      rw [heq]
      have := hmap (i + 1) (by simpa using hi)
      simpa using this
    rw [minIdxAux]
    split
    · rename_i hym
      obtain ⟨hor, hle, hall⟩ := ih y (j + 1) j hshift hy (Nat.lt_succ_self j)
      refine ⟨?_, le_trans hle (le_of_lt hym), ?_⟩
      · left
        simp only [List.length_cons]
        rcases hor with h | h
        · omega
        · omega
      · intro i hi
        cases i with
        | zero => simpa [hy] using hle
        | succ i => simpa using hall i (by simpa using hi)
    · rename_i hym
      have hmy : m ≤ y := not_lt.mp hym
      obtain ⟨hor, hle, hall⟩ := ih m (j + 1) best hshift hbest
        (Nat.lt_succ_of_lt hlt)
      refine ⟨?_, hle, ?_⟩
      · rcases hor with h | h
        · left
          simp only [List.length_cons]
          omega
        · exact Or.inr h
      · intro i hi
        cases i with
        | zero => simpa using le_trans hle hmy
        | succ i => simpa using hall i (by simpa using hi)

/-- The `min`-scan of `selectionSort` returns an in-range index whose
value is a lower bound of the whole list. -/
theorem minIdx_spec (x : Int) (xs : List Int) :
    minIdx (x :: xs) < (x :: xs).length ∧
      (x :: xs).getD (minIdx (x :: xs)) 0 ≤ x ∧
      ∀ b ∈ xs, (x :: xs).getD (minIdx (x :: xs)) 0 ≤ b := by
  have hmap : ∀ i, i < xs.length → (x :: xs).getD (1 + i) 0 = xs.getD i 0 := by
    intro i hi
    rw [Nat.add_comm]
    simp
  obtain ⟨hor, hle, hall⟩ := minIdxAux_spec (x :: xs) xs x 1 0 hmap (by simp)
    Nat.one_pos
  rw [minIdx]
  refine ⟨?_, hle, ?_⟩
  · rcases hor with h | h
    · simpa [Nat.add_comm] using h
    · simp [h]
  · intro b hb
    obtain ⟨i, hi, hv⟩ := exists_getD_of_mem xs b hb
    exact hv ▸ hall i hi

/-- `selectionSort` outputs a permutation of its input. -/
theorem selectionSort_perm (l : List Int) : selectionSort l ~ l := by
  induction l using selectionSort.induct with
  | case1 => simp [selectionSort]
  | case2 x xs k hk ih =>
    rw [selectionSort]
    simp only [if_pos hk]
    exact ih.cons x
  | case3 x xs k hk ih =>
    rw [selectionSort]
    simp only [if_neg hk]
    have hklen : k < (x :: xs).length := (minIdx_spec x xs).1
    have hk1 : k - 1 < xs.length := by
      simp only [List.length_cons] at hklen
      omega
    have hval : (x :: xs).getD k 0 = xs.getD (k - 1) 0 := by
      have : k = (k - 1) + 1 := by omega
      rw [this]
      simp
    calc (x :: xs).getD k 0 :: selectionSort (xs.set (k - 1) x)
        ~ (x :: xs).getD k 0 :: xs.set (k - 1) x := ih.cons _
      _ ~ x :: xs := by rw [hval]; exact getD_set_perm xs (k - 1) x hk1

/-- `selectionSort` outputs a sorted list. -/
theorem selectionSort_sorted (l : List Int) :
    (selectionSort l).Sorted (· ≤ ·) := by
  induction l using selectionSort.induct with
  | case1 => simp [selectionSort]
  | case2 x xs k hk ih =>
    rw [selectionSort]
    simp only [if_pos hk]
    rw [List.sorted_cons]
    refine ⟨fun b hb => ?_, ih⟩
    have hb' := (selectionSort_perm xs).mem_iff.mp hb
    have hspec := minIdx_spec x xs
    have hx : (x :: xs).getD (minIdx (x :: xs)) 0 = x := by
      rw [show minIdx (x :: xs) = k from rfl, hk]
      simp
    exact hx ▸ hspec.2.2 b hb'
  | case3 x xs k hk ih =>
    rw [selectionSort]
    simp only [if_neg hk]
    rw [List.sorted_cons]
    refine ⟨fun b hb => ?_, ih⟩
    have hb' := (selectionSort_perm _).mem_iff.mp hb
    have hspec := minIdx_spec x xs
    rcases List.mem_or_eq_of_mem_set hb' with hmem | rfl
    · exact hspec.2.2 b hmem
    · exact hspec.2.1

/-- Dropping `n` elements of a list with more than `n` elements exposes
the entry at `n`. -/
theorem drop_eq_getD_cons (l : List Int) :
    ∀ n, n < l.length → l.drop n = l.getD n 0 :: l.drop (n + 1) := by
  induction l with
  | nil => intro n hn; simp at hn
  | cons x xs ih =>
    intro n hn
    cases n with
    | zero => simp
    | succ m => simpa using ih m (by simpa using hn)

/-- The entry at `n` belongs to the prefix of length `n + 1`. -/
theorem getD_mem_take (l : List Int) :
    ∀ n, n < l.length → l.getD n 0 ∈ l.take (n + 1) := by
  induction l with
  | nil => intro n hn; simp at hn
  | cons x xs ih =>
    intro n hn
    cases n with
    | zero => simp
    | succ m =>
      simp only [List.getD_cons_succ, List.take_succ_cons]
      exact List.mem_cons_of_mem x (ih m (by simpa using hn))

/-- Two permutations of each other with equal `n`-suffixes have
permuted `n`-prefixes. -/
theorem take_perm_of_drop_eq (l₁ l₂ : List Int) (n : Nat) (hp : l₁ ~ l₂)
    (hd : l₁.drop n = l₂.drop n) : l₁.take n ~ l₂.take n := by
  have h1 : l₁.take n ++ l₁.drop n ~ l₂.take n ++ l₂.drop n := by
    rw [List.take_append_drop, List.take_append_drop]
    exact hp
  rw [hd] at h1
  exact (List.perm_append_right_iff _).mp h1

/-- A bounded bubble pass permutes the list. -/
theorem bubblePass_perm (b : Nat) : ∀ l : List Int, bubblePass l b ~ l := by
  induction b with
  | zero => intro l; rw [bubblePass]
  | succ b ih =>
    intro l
    match l with
    | [] => rw [bubblePass]
    | [x] => rw [bubblePass]
    | x :: y :: rest =>
      rw [bubblePass]
      split
      · exact ((ih (x :: rest)).cons y).trans (List.Perm.swap x y rest)
      · exact (ih (y :: rest)).cons x

/-- A bubble pass with bound `b` does not change the list beyond
position `b`. -/
theorem bubblePass_drop (b : Nat) :
    ∀ l : List Int, (bubblePass l b).drop (b + 1) = l.drop (b + 1) := by
  induction b with
  | zero => intro l; rw [bubblePass]
  | succ b ih =>
    intro l
    match l with
    | [] => rw [bubblePass]
    | [x] => rw [bubblePass]
    | x :: y :: rest =>
      rw [bubblePass]
      split
      · simpa using ih (x :: rest)
      · simpa using ih (y :: rest)

/-- After a bubble pass with bound `b`, the entry at position `b` bounds
every element of the input's prefix of length `b + 1` from above: the
pass bubbles a maximum to position `b`. -/
theorem bubblePass_bound (b : Nat) :
    ∀ l : List Int, b < l.length →
      ∀ a ∈ l.take (b + 1), a ≤ (bubblePass l b).getD b 0 := by
  induction b with
  | zero =>
    intro l hl a ha
    match l, hl with
    | z :: t, _ =>
      rw [bubblePass]
      simp only [List.take_succ_cons, List.take_zero, List.mem_singleton] at ha
      simp [ha]
  | succ b ih =>
    intro l hl a ha
    match l, hl with
    | x :: y :: rest, hl =>
      rw [bubblePass]
      have hlen : b < (x :: rest).length := by
        simp only [List.length_cons] at hl ⊢
        omega
      simp only [List.take_succ_cons, List.mem_cons] at ha
      split
      · rename_i hxy
        simp only [List.getD_cons_succ]
        have hx : x ≤ (bubblePass (x :: rest) b).getD b 0 :=
          ih (x :: rest) hlen x (by simp)
        rcases ha with rfl | rfl | hmem
        · exact hx
        · exact le_trans (le_of_lt hxy) hx
        · exact ih (x :: rest) hlen a
            (by simpa using List.mem_cons_of_mem x (by simpa using hmem))
      · rename_i hxy
        simp only [List.getD_cons_succ]
        have hy : y ≤ (bubblePass (y :: rest) b).getD b 0 :=
          ih (y :: rest) hlen y (by simp)
        rcases ha with rfl | rfl | hmem
        · exact le_trans (not_lt.mp hxy) hy
        · exact hy
        · exact ih (y :: rest) hlen a
            (by simpa using List.mem_cons_of_mem y (by simpa using hmem))

/-- The bubble outer loop permutes the list. -/
theorem bubbleAux_perm : ∀ (k : Nat) (a : List Int), bubbleAux a k ~ a := by
  intro k
  induction k with
  | zero => intro a; rw [bubbleAux]; exact bubblePass_perm 0 a
  | succ k ih =>
    intro a
    rw [bubbleAux]
    exact (ih _).trans (bubblePass_perm (k + 1) a)

/-- Invariant proof for the bubble outer loop: if everything beyond
position `k` is already sorted and dominates the prefix, the remaining
passes with bounds `k, k-1, …, 0` sort the list. -/
theorem bubbleAux_sorted :
    ∀ (k : Nat) (a : List Int), k < a.length →
      (a.drop (k + 1)).Sorted (· ≤ ·) →
      (∀ x ∈ a.take (k + 1), ∀ y ∈ a.drop (k + 1), x ≤ y) →
      (bubbleAux a k).Sorted (· ≤ ·) := by
  intro k
  induction k with
  | zero =>
    intro a ha hs hc
    rw [bubbleAux, bubblePass]
    match a, ha with
    | z :: t, _ =>
      rw [List.sorted_cons]
      simp only [List.drop_succ_cons, List.drop_zero] at hs hc
      exact ⟨fun b hb => hc z (by simp) b hb, hs⟩
  | succ k ih =>
    intro a ha hs hc
    rw [bubbleAux]
    set a' := bubblePass a (k + 1) with ha'
    have hperm : a' ~ a := bubblePass_perm (k + 1) a
    have hlen : a'.length = a.length := hperm.length_eq
    have hdrop : a'.drop (k + 2) = a.drop (k + 2) := bubblePass_drop (k + 1) a
    have htake : a'.take (k + 2) ~ a.take (k + 2) :=
      take_perm_of_drop_eq a' a (k + 2) hperm hdrop
    have hk2 : k + 1 < a'.length := by omega
    have hgd : ∀ x ∈ a.take (k + 2), x ≤ a'.getD (k + 1) 0 :=
      bubblePass_bound (k + 1) a ha
    have hgdmem : a'.getD (k + 1) 0 ∈ a.take (k + 2) :=
      htake.subset (getD_mem_take a' (k + 1) hk2)
    have hmem_take : ∀ x ∈ a'.take (k + 1), x ∈ a.take (k + 2) := by
      intro x hx
      apply htake.subset
      have : a'.take (k + 1) = (a'.take (k + 2)).take (k + 1) := by
        rw [List.take_take]
        simp [Nat.min_def]
      rw [this] at hx
      exact List.mem_of_mem_take hx
    have hdropsplit : a'.drop (k + 1) = a'.getD (k + 1) 0 :: a.drop (k + 2) := by
      rw [drop_eq_getD_cons a' (k + 1) hk2, hdrop]
    refine ih a' (by omega) ?_ ?_
    · rw [hdropsplit, List.sorted_cons]
      exact ⟨fun b hb => hc _ hgdmem b hb, hs⟩
    · intro x hx y hy
      rw [hdropsplit, List.mem_cons] at hy
      rcases hy with rfl | hy
      · exact hgd x (hmem_take x hx)
      · exact hc x (hmem_take x hx) y hy

/-- `bubbleSort` outputs a permutation of its input. -/
theorem bubbleSort_perm (l : List Int) : bubbleSort l ~ l :=
  bubbleAux_perm (l.length - 1) l

/-- `bubbleSort` outputs a sorted list. -/
theorem bubbleSort_sorted (l : List Int) : (bubbleSort l).Sorted (· ≤ ·) := by
  match l with
  | [] => decide
  | x :: xs =>
    apply bubbleAux_sorted
    · simp
    · rw [show (x :: xs).length - 1 + 1 = (x :: xs).length from by simp]
      simp
    · intro a ha y hy
      rw [show (x :: xs).length - 1 + 1 = (x :: xs).length from by simp] at hy
      simp at hy

/-- `set` then read at the written index returns the written value. -/
theorem getD_set_self (l : List Int) :
    ∀ i, i < l.length → ∀ x : Int, (l.set i x).getD i 0 = x := by
  induction l with
  | nil => intro i hi; simp at hi
  | cons y ys ih =>
    intro i hi x
    cases i with
    | zero => simp
    | succ j => simpa using ih j (by simpa using hi) x

/-- `set` then read at another index is unchanged. -/
theorem getD_set_ne (l : List Int) :
    ∀ (i j : Nat) (x : Int), i ≠ j → (l.set i x).getD j 0 = l.getD j 0 := by
  induction l with
  | nil => intro i j x _; simp
  | cons y ys ih =>
    intro i j x hij
    cases i with
    | zero =>
      cases j with
      | zero => exact absurd rfl hij
      | succ j' => simp
    | succ i' =>
      cases j with
      | zero => simp
      | succ j' => simpa using ih i' j' x (by omega)

/-- Reading an appended list inside the first part. -/
theorem getD_append_left (l l₂ : List Int) :
    ∀ k, k < l.length → (l ++ l₂).getD k 0 = l.getD k 0 := by
  induction l with
  | nil => intro k hk; simp at hk
  | cons y ys ih =>
    intro k hk
    cases k with
    | zero => simp
    | succ j => simpa using ih j (by simpa using hk)

/-- Reading a prefix inside its length. -/
theorem getD_take (l : List Int) :
    ∀ (n k : Nat), k < n → (l.take n).getD k 0 = l.getD k 0 := by
  induction l with
  | nil => intro n k _; simp
  | cons y ys ih =>
    intro n k hk
    cases n with
    | zero => omega
    | succ m =>
      cases k with
      | zero => simp
      | succ j => simpa using ih m j (by omega)

theorem length_swapL (a : List Int) (i j : Nat) :
    (swapL a i j).length = a.length := by
  simp [swapL]

/-- `swapL` writes the old `j` entry at `i`. -/
theorem getD_swapL_fst (a : List Int) (i j : Nat) (hi : i < a.length)
    (hj : j < a.length) : (swapL a i j).getD i 0 = a.getD j 0 := by
  unfold swapL
  by_cases hij : i = j
  · subst hij
    exact getD_set_self _ i (by simpa using hi) _
  · rw [getD_set_ne _ j i _ (Ne.symm hij)]
    exact getD_set_self _ i hi _

/-- `swapL` writes the old `i` entry at `j`. -/
theorem getD_swapL_snd (a : List Int) (i j : Nat) (hj : j < a.length) :
    (swapL a i j).getD j 0 = a.getD i 0 := by
  unfold swapL
  exact getD_set_self _ j (by simpa using hj) _

/-- `swapL` leaves other entries unchanged. -/
theorem getD_swapL_other (a : List Int) (i j k : Nat) (h1 : k ≠ i)
    (h2 : k ≠ j) : (swapL a i j).getD k 0 = a.getD k 0 := by
  unfold swapL
  rw [getD_set_ne _ j k _ (Ne.symm h2), getD_set_ne _ i k _ (Ne.symm h1)]

theorem hrel_refl (ht : Ht) (x : Int) : hrel ht x x := by
  cases ht <;> simp [hrel]

theorem hrel_trans (ht : Ht) {x y z : Int} (h1 : hrel ht x y)
    (h2 : hrel ht y z) : hrel ht x z := by
  cases ht <;> simp [hrel] at * <;> omega

theorem hrel_of_hcmp (ht : Ht) {x y : Int} (h : hcmp ht x y = true) :
    hrel ht x y := by
  cases ht <;> simp [hcmp, hrel] at * <;> omega

theorem hrel_of_not_hcmp (ht : Ht) {x y : Int} (h : ¬ hcmp ht x y = true) :
    hrel ht y x := by
  cases ht <;> simp [hcmp, hrel] at * <;> omega

theorem hcmp_trans (ht : Ht) {x y z : Int} (h1 : hcmp ht x y = true)
    (h2 : hcmp ht y z = true) : hcmp ht x z = true := by
  cases ht <;> simp [hcmp] at * <;> omega

theorem par_lt {j : Nat} (h : 0 < j) : par j < j := by
  unfold par
  omega

theorem par_child_cases {j : Nat} (h : 0 < j) :
    j = 2 * par j + 1 ∨ j = 2 * par j + 2 := by
  unfold par
  omega

theorem par_left (i : Nat) : par (2 * i + 1) = i := by
  unfold par
  omega

theorem par_right (i : Nat) : par (2 * i + 2) = i := by
  unfold par
  omega

/-- A subtree index is at least the root. -/
theorem Desc.le' {i j : Nat} (h : Desc i j) : i ≤ j := by
  induction h with
  | refl => omega
  | left k hd ih => omega
  | right k hd ih => omega

/-- A proper subtree index is at least the first child. -/
theorem Desc.lower {i j : Nat} (h : Desc i j) : j = i ∨ 2 * i + 1 ≤ j := by
  induction h with
  | refl => exact Or.inl rfl
  | left k hd ih =>
    have := hd.le'
    right
    omega
  | right k hd ih =>
    have := hd.le'
    right
    omega

theorem Desc.trans' {i j k : Nat} (h1 : Desc i j) (h2 : Desc j k) :
    Desc i k := by
  induction h2 with
  | refl => exact h1
  | left m hd ih => exact Desc.left _ _ ih
  | right m hd ih => exact Desc.right _ _ ih

/-- The spec's parent-to-children form of the heap invariant coincides
with the child-indexed form. -/
theorem heapProp_iff (ht : Ht) (a : List Int) :
    heapProp ht a ↔ hpFrom ht a 0 := by
  constructor
  · intro h j hj0 hjlen _
    have hplen : par j < a.length := lt_trans (par_lt hj0) hjlen
    rcases par_child_cases hj0 with hc | hc
    · have := (h (par j) hplen).1 (by omega)
      rwa [← hc] at this
    · have := (h (par j) hplen).2 (by omega)
      rwa [← hc] at this
  · intro h i _
    constructor
    · intro hl
      have := h (2 * i + 1) (by omega) hl (by omega)
      rwa [par_left] at this
    · intro hr
      have := h (2 * i + 2) (by omega) hr (by omega)
      rwa [par_right] at this

theorem siftUpAux_length (ht : Ht) :
    ∀ (fuel : Nat) (a : List Int) (i : Nat),
      (siftUpAux ht fuel a i).length = a.length := by
  intro fuel
  induction fuel with
  | zero => intro a i; rw [siftUpAux]
  | succ fuel ih =>
    intro a i
    rw [siftUpAux]
    split
    · rfl
    · split
      · rw [ih, length_swapL]
      · rfl

/-- Sift-up restores the heap invariant: if every parent/child pair
except the one at `i` already satisfies the relation, and the children
of `i` already satisfy it towards `i`'s parent, then after sifting up
from `i` the whole array is a heap. -/
theorem siftUpAux_heap (ht : Ht) :
    ∀ (fuel : Nat) (a : List Int) (i : Nat), i < fuel → i < a.length →
      (∀ j, 0 < j → j < a.length → j ≠ i →
        hrel ht (a.getD (par j) 0) (a.getD j 0)) →
      (0 < i → ∀ j, j < a.length → par j = i →
        hrel ht (a.getD (par i) 0) (a.getD j 0)) →
      hpFrom ht (siftUpAux ht fuel a i) 0 := by
  intro fuel
  induction fuel with
  | zero => intro a i hfuel; omega
  | succ fuel ih =>
    intro a i hfuel hlen hexc hch
    rw [siftUpAux]
    split
    · rename_i hi0
      subst hi0
      intro j hj0 hjlen _
      exact hexc j hj0 hjlen (by omega)
    · rename_i hi0
      have hipos : 0 < i := Nat.pos_of_ne_zero hi0
      have hp_lt : par i < i := par_lt hipos
      have hp_len : par i < a.length := lt_trans hp_lt hlen
      split
      · rename_i hcmp_t
        have hlen' : (swapL a i (par i)).length = a.length :=
          length_swapL a i (par i)
        have hgi : (swapL a i (par i)).getD i 0 = a.getD (par i) 0 :=
          getD_swapL_fst a i (par i) hlen hp_len
        have hgp : (swapL a i (par i)).getD (par i) 0 = a.getD i 0 :=
          getD_swapL_snd a i (par i) hp_len
        have hgo : ∀ k, k ≠ i → k ≠ par i →
            (swapL a i (par i)).getD k 0 = a.getD k 0 :=
          fun k h1 h2 => getD_swapL_other a i (par i) k h1 h2
        refine ih (swapL a i (par i)) (par i) (by omega) (by omega) ?_ ?_
        · intro j hj0 hjlen hjp
          rw [hlen'] at hjlen
          by_cases hji : j = i
          · subst hji
            rw [hgi, hgp]
            exact hrel_of_hcmp ht hcmp_t
          · rw [hgo j hji hjp]
            by_cases hpj_i : par j = i
            · rw [hpj_i, hgi]
              exact hch hipos j hjlen hpj_i
            · by_cases hpj_p : par j = par i
              · rw [hpj_p, hgp]
                have h1 : hrel ht (a.getD i 0) (a.getD (par i) 0) :=
                  hrel_of_hcmp ht hcmp_t
                have h2 : hrel ht (a.getD (par i) 0) (a.getD j 0) := by
                  have := hexc j hj0 hjlen hji
                  rwa [hpj_p] at this
                exact hrel_trans ht h1 h2
              · rw [hgo (par j) hpj_i hpj_p]
                exact hexc j hj0 hjlen hji
        · intro hppos j hjlen hpj
          rw [hlen'] at hjlen
          have hpp_lt : par (par i) < par i := par_lt hppos
          have hpp_ne_i : par (par i) ≠ i := by omega
          have hpp_ne_p : par (par i) ≠ par i := by omega
          rw [hgo (par (par i)) hpp_ne_i hpp_ne_p]
          have hrelpp : hrel ht (a.getD (par (par i)) 0) (a.getD (par i) 0) :=
            hexc (par i) hppos hp_len (by omega)
          by_cases hji : j = i
          · subst hji
            rw [hgi]
            exact hrelpp
          · have hj0 : 0 < j := by
              rcases Nat.eq_zero_or_pos j with rfl | h0
              · rw [show par 0 = 0 from rfl] at hpj
                omega
              · exact h0
            have hjp : j ≠ par i := by
              have := par_lt hj0
              omega
            rw [hgo j hji hjp]
            have h2 : hrel ht (a.getD (par i) 0) (a.getD j 0) := by
              have := hexc j hj0 hjlen hji
              rwa [hpj] at this
            exact hrel_trans ht hrelpp h2
      · rename_i hcmp_f
        intro j hj0 hjlen _
        by_cases hji : j = i
        · subst hji
          exact hrel_of_not_hcmp ht hcmp_f
        · exact hexc j hj0 hjlen hji

/-- `insert` preserves the heap invariant. -/
theorem heapInsert_heapProp (ht : Ht) (l : List Int) (v : Int)
    (h : heapProp ht l) : heapProp ht (heapInsert ht l v) := by
  rw [heapProp_iff] at h ⊢
  unfold heapInsert siftUp
  apply siftUpAux_heap ht (l.length + 1) (l ++ [v]) l.length (by omega)
    (by simp)
  · intro j hj0 hjlen hji
    have hjlen' : j < l.length := by
      simp only [List.length_append, List.length_cons, List.length_nil] at hjlen
      omega
    have hpjlen : par j < l.length := lt_trans (par_lt hj0) hjlen'
    rw [getD_append_left l [v] j hjlen', getD_append_left l [v] (par j) hpjlen]
    exact h j hj0 hjlen' (by omega)
  · intro hipos j hjlen hpj
    exfalso
    rcases Nat.eq_zero_or_pos j with rfl | hj0
    · rw [show par 0 = 0 from rfl] at hpj
      omega
    · have := par_lt hj0
      simp only [List.length_append, List.length_cons, List.length_nil] at hjlen
      omega

/-- Case analysis of one sift-down target computation: either the target
is `i` itself and `i` already dominates its in-range children, or the
target is an in-range child that beats `i` and dominates both in-range
children. -/
theorem sdTarget_spec (ht : Ht) (a : List Int) (i : Nat) :
    (sdTarget ht a i = i ∧
      (2 * i + 1 < a.length →
        hrel ht (a.getD i 0) (a.getD (2 * i + 1) 0)) ∧
      (2 * i + 2 < a.length →
        hrel ht (a.getD i 0) (a.getD (2 * i + 2) 0))) ∨
    (sdTarget ht a i ≠ i ∧
      (sdTarget ht a i = 2 * i + 1 ∨ sdTarget ht a i = 2 * i + 2) ∧
      sdTarget ht a i < a.length ∧
      hcmp ht (a.getD (sdTarget ht a i) 0) (a.getD i 0) = true ∧
      (2 * i + 1 < a.length →
        hrel ht (a.getD (sdTarget ht a i) 0) (a.getD (2 * i + 1) 0)) ∧
      (2 * i + 2 < a.length →
        hrel ht (a.getD (sdTarget ht a i) 0) (a.getD (2 * i + 2) 0))) := by
  unfold sdTarget
  simp only
  split
  · rename_i h1
    split
    · rename_i h2
      refine Or.inr ⟨by omega, Or.inr rfl, h2.1, hcmp_trans ht h2.2 h1.2, ?_, ?_⟩
      · intro _
        exact hrel_of_hcmp ht h2.2
      · intro _
        exact hrel_refl ht _
    · rename_i h2
      refine Or.inr ⟨by omega, Or.inl rfl, h1.1, h1.2, ?_, ?_⟩
      · intro _
        exact hrel_refl ht _
      · intro hr
        exact hrel_of_not_hcmp ht (fun hc => h2 ⟨hr, hc⟩)
  · rename_i h1
    split
    · rename_i h2
      refine Or.inr ⟨by omega, Or.inr rfl, h2.1, h2.2, ?_, ?_⟩
      · intro hl
        have hril : hrel ht (a.getD i 0) (a.getD (2 * i + 1) 0) :=
          hrel_of_not_hcmp ht (fun hc => h1 ⟨hl, hc⟩)
        exact hrel_trans ht (hrel_of_hcmp ht h2.2) hril
      · intro _
        exact hrel_refl ht _
    · rename_i h2
      refine Or.inl ⟨rfl, ?_, ?_⟩
      · intro hl
        exact hrel_of_not_hcmp ht (fun hc => h1 ⟨hl, hc⟩)
      · intro hr
        exact hrel_of_not_hcmp ht (fun hc => h2 ⟨hr, hc⟩)

/-- A non-trivial sift-down target is a child of `i`, hence a subtree
index strictly above `i` and in range. -/
theorem sdTarget_desc (ht : Ht) (a : List Int) (i : Nat)
    (h : sdTarget ht a i ≠ i) : Desc i (sdTarget ht a i) := by
  rcases sdTarget_spec ht a i with ⟨heq, _⟩ | ⟨_, hc, _⟩
  · exact absurd heq h
  · rcases hc with hc | hc
    · rw [hc]
      exact Desc.left _ _ (Desc.refl i)
    · rw [hc]
      exact Desc.right _ _ (Desc.refl i)

theorem siftDownAux_length (ht : Ht) :
    ∀ (fuel : Nat) (a : List Int) (i : Nat),
      (siftDownAux ht fuel a i).length = a.length := by
  intro fuel
  induction fuel with
  | zero => intro a i; rw [siftDownAux]
  | succ fuel ih =>
    intro a i
    rw [siftDownAux]
    split
    · rfl
    · rw [ih, length_swapL]

/-- Sift-down does not modify entries outside the subtree rooted at
`i`. -/
theorem siftDownAux_getD_of_not_desc (ht : Ht) :
    ∀ (fuel : Nat) (a : List Int) (i j : Nat), ¬ Desc i j →
      (siftDownAux ht fuel a i).getD j 0 = a.getD j 0 := by
  intro fuel
  induction fuel with
  | zero => intro a i j _; rw [siftDownAux]
  | succ fuel ih =>
    intro a i j hnd
    rw [siftDownAux]
    split
    · rfl
    · rename_i hne
      have hdit : Desc i (sdTarget ht a i) := sdTarget_desc ht a i hne
      have hndt : ¬ Desc (sdTarget ht a i) j := fun hd => hnd (hdit.trans' hd)
      rw [ih _ _ j hndt]
      have hji : j ≠ i := fun hji => hnd (hji ▸ Desc.refl i)
      have hjt : j ≠ sdTarget ht a i := fun hjt => hnd (hjt ▸ hdit)
      exact getD_swapL_other a i _ j hji hjt

/-- Every entry of the sift-down result inside the subtree rooted at `i`
is an original entry of that subtree. -/
theorem siftDownAux_getD_mem (ht : Ht) :
    ∀ (fuel : Nat) (a : List Int) (i j : Nat), Desc i j → j < a.length →
      ∃ k, Desc i k ∧ k < a.length ∧
        (siftDownAux ht fuel a i).getD j 0 = a.getD k 0 := by
  intro fuel
  induction fuel with
  | zero =>
    intro a i j hd hj
    rw [siftDownAux]
    exact ⟨j, hd, hj, rfl⟩
  | succ fuel ih =>
    intro a i j hd hj
    rw [siftDownAux]
    split
    · exact ⟨j, hd, hj, rfl⟩
    · rename_i hne
      have hdit : Desc i (sdTarget ht a i) := sdTarget_desc ht a i hne
      have hit_lt : i < sdTarget ht a i := by
        have := hdit.le'
        omega
      rcases sdTarget_spec ht a i with ⟨heq, _⟩ | ⟨_, _, htlen, _⟩
      · exact absurd heq hne
      by_cases hdtj : Desc (sdTarget ht a i) j
      · obtain ⟨k', hk'd, hk'len, hk'eq⟩ := ih (swapL a i (sdTarget ht a i))
          (sdTarget ht a i) j hdtj (by rwa [length_swapL])
        rw [length_swapL] at hk'len
        have hk'ne_i : k' ≠ i := by
          have := hk'd.le'
          omega
        by_cases hk't : k' = sdTarget ht a i
        · refine ⟨i, Desc.refl i, by omega, ?_⟩
          rw [hk'eq, hk't]
          exact getD_swapL_snd a i _ htlen
        · refine ⟨k', hdit.trans' hk'd, hk'len, ?_⟩
          rw [hk'eq]
          exact getD_swapL_other a i _ k' hk'ne_i hk't
      · have heqj : (siftDownAux ht fuel (swapL a i (sdTarget ht a i))
            (sdTarget ht a i)).getD j 0 =
            (swapL a i (sdTarget ht a i)).getD j 0 :=
          siftDownAux_getD_of_not_desc ht fuel _ _ j hdtj
        rw [heqj]
        by_cases hji : j = i
        · subst hji
          refine ⟨sdTarget ht a j, hdit, htlen, ?_⟩
          exact getD_swapL_fst a j _ hj htlen
        · have hjt : j ≠ sdTarget ht a i := fun hjt => hdtj (hjt ▸ Desc.refl _)
          refine ⟨j, hd, hj, ?_⟩
          exact getD_swapL_other a i _ j hji hjt

/-- In an array whose pairs with parent index at least `c` satisfy the
heap relation, the entry at `c` dominates its whole subtree. -/
theorem hpFrom_desc_bound (ht : Ht) (a : List Int) (c : Nat)
    (h : hpFrom ht a c) :
    ∀ k, Desc c k → k < a.length → hrel ht (a.getD c 0) (a.getD k 0) := by
  intro k hd
  induction hd with
  | refl => exact fun _ => hrel_refl ht _
  | left m hdm ih =>
    intro hlen
    have hm : m < a.length := by omega
    have h1 : hrel ht (a.getD c 0) (a.getD m 0) := ih hm
    have h2 : hrel ht (a.getD m 0) (a.getD (2 * m + 1) 0) := by
      have := h (2 * m + 1) (by omega) hlen
        (by rw [par_left]; exact hdm.le')
      rwa [par_left] at this
    exact hrel_trans ht h1 h2
  | right m hdm ih =>
    intro hlen
    have hm : m < a.length := by omega
    have h1 : hrel ht (a.getD c 0) (a.getD m 0) := ih hm
    have h2 : hrel ht (a.getD m 0) (a.getD (2 * m + 2) 0) := by
      have := h (2 * m + 2) (by omega) hlen
        (by rw [par_right]; exact hdm.le')
      rwa [par_right] at this
    exact hrel_trans ht h1 h2

/-- Sift-down from `i` establishes the heap relation on all pairs with
parent index at least `i`, provided the pairs with parent index above
`i` already satisfied it.  The fuel hypothesis is satisfied by every
call the model makes (`fuel + i ≥ length`). -/
theorem siftDownAux_hpFrom (ht : Ht) :
    ∀ (fuel : Nat) (a : List Int) (i : Nat), a.length ≤ fuel + i →
      hpFrom ht a (i + 1) → hpFrom ht (siftDownAux ht fuel a i) i := by
  intro fuel
  induction fuel with
  | zero =>
    intro a i hfuel h
    rw [siftDownAux]
    intro j hj0 hjlen hij
    have := par_lt hj0
    omega
  | succ fuel ih =>
    intro a i hfuel h
    rw [siftDownAux]
    split
    · rename_i heq
      rcases sdTarget_spec ht a i with ⟨_, hrl, hrr⟩ | ⟨hne, _⟩
      · intro j hj0 hjlen hij
        by_cases hpj : par j = i
        · rcases par_child_cases hj0 with hc | hc
          · rw [hpj] at hc ⊢
            rw [hc]
            exact hrl (hc ▸ hjlen)
          · rw [hpj] at hc ⊢
            rw [hc]
            exact hrr (hc ▸ hjlen)
        · exact h j hj0 hjlen (by omega)
      · exact absurd heq hne
    · rename_i hne
      rcases sdTarget_spec ht a i with ⟨heq, _⟩ | hspec
      · exact absurd heq hne
      obtain ⟨_, htc, htlen, htcmp, hrl, hrr⟩ := hspec
      have hti : i < sdTarget ht a i := by
        rcases htc with hc | hc <;> omega
      have hilen : i < a.length := lt_trans hti htlen
      have hpart : par (sdTarget ht a i) = i := by
        rcases htc with hc | hc
        · rw [hc, par_left]
        · rw [hc, par_right]
      have hdit : Desc i (sdTarget ht a i) := sdTarget_desc ht a i hne
      have hlen' : (swapL a i (sdTarget ht a i)).length = a.length :=
        length_swapL a i _
      have hAlen : (siftDownAux ht fuel (swapL a i (sdTarget ht a i))
          (sdTarget ht a i)).length = a.length := by
        rw [siftDownAux_length, hlen']
      -- the recursive call and its precondition
      have hpre : hpFrom ht (swapL a i (sdTarget ht a i))
          (sdTarget ht a i + 1) := by
        intro j hj0 hjlen hij
        rw [hlen'] at hjlen
        have hpj_gt : sdTarget ht a i < par j := by omega
        have hpj_ne_i : par j ≠ i := by omega
        have hpj_ne_t : par j ≠ sdTarget ht a i := by omega
        have hj_gt : sdTarget ht a i < j := lt_trans hpj_gt (par_lt hj0)
        have hj_ne_i : j ≠ i := by omega
        have hj_ne_t : j ≠ sdTarget ht a i := by omega
        rw [getD_swapL_other a i _ j hj_ne_i hj_ne_t,
          getD_swapL_other a i _ (par j) hpj_ne_i hpj_ne_t]
        exact h j hj0 hjlen (by omega)
      have hB := ih (swapL a i (sdTarget ht a i)) (sdTarget ht a i)
        (by rw [hlen']; omega) hpre
      -- now check every pair with parent index ≥ i
      intro j hj0 hjlen hij
      rw [hAlen] at hjlen
      by_cases hble : sdTarget ht a i ≤ par j
      · refine hB j hj0 ?_ hble
        rw [siftDownAux_length, hlen']
        exact hjlen
      · by_cases hpj_i : par j = i
        · -- j is a child of i
          have hAi : (siftDownAux ht fuel (swapL a i (sdTarget ht a i))
              (sdTarget ht a i)).getD i 0 = a.getD (sdTarget ht a i) 0 := by
            rw [siftDownAux_getD_of_not_desc ht fuel _ _ i
              (fun hd => by have := hd.le'; omega)]
            exact getD_swapL_fst a i _ hilen htlen
          rw [hpj_i, hAi]
          by_cases hjt : j = sdTarget ht a i
          · -- the pair (i, target)
            obtain ⟨k, hkd, hklen, hkeq⟩ := siftDownAux_getD_mem ht fuel
              (swapL a i (sdTarget ht a i)) (sdTarget ht a i) j
              (hjt ▸ Desc.refl _) (by rwa [hlen'])
            rw [hlen'] at hklen
            rw [hkeq]
            have hk_ne_i : k ≠ i := by
              have := hkd.le'
              omega
            by_cases hkt : k = sdTarget ht a i
            · rw [hkt, getD_swapL_snd a i _ htlen]
              exact hrel_of_hcmp ht htcmp
            · rw [getD_swapL_other a i _ k hk_ne_i hkt]
              exact hpFrom_desc_bound ht a (sdTarget ht a i)
                (fun m hm0 hmlen hmge => h m hm0 hmlen (by omega)) k hkd hklen
          · -- j is the sibling of the target
            have hnd : ¬ Desc (sdTarget ht a i) j := by
              intro hd
              rcases hd.lower with rfl | hlow
              · exact hjt rfl
              · have hj_child : j = 2 * i + 1 ∨ j = 2 * i + 2 := by
                  rcases par_child_cases hj0 with hc | hc
                  · rw [hpj_i] at hc
                    exact Or.inl hc
                  · rw [hpj_i] at hc
                    exact Or.inr hc
                rcases htc with hc | hc <;> rcases hj_child with hc' | hc' <;>
                  omega
            rw [siftDownAux_getD_of_not_desc ht fuel _ _ j hnd]
            have hj_ne_i : j ≠ i := by
              have := par_lt hj0
              omega
            rw [getD_swapL_other a i _ j hj_ne_i hjt]
            have hj_child : j = 2 * i + 1 ∨ j = 2 * i + 2 := by
              rcases par_child_cases hj0 with hc | hc
              · rw [hpj_i] at hc
                exact Or.inl hc
              · rw [hpj_i] at hc
                exact Or.inr hc
            rcases hj_child with hc | hc
            · rw [hc]
              exact hrl (hc ▸ hjlen)
            · rw [hc]
              exact hrr (hc ▸ hjlen)
        · -- i < par j < target : the pair is untouched
          have hpj_range : i < par j ∧ par j < sdTarget ht a i := by omega
          have hnd_p : ¬ Desc (sdTarget ht a i) (par j) := by
            intro hd
            have := hd.le'
            omega
          have hj_ne_t : j ≠ sdTarget ht a i := by
            intro hjt
            rw [hjt, hpart] at hpj_i
            exact hpj_i rfl
          have hnd_j : ¬ Desc (sdTarget ht a i) j := by
            intro hd
            rcases hd.lower with heq' | hlow
            · exact hj_ne_t heq'
            · have : sdTarget ht a i ≤ par j := by
                unfold par
                omega
              omega
          have hpj_ne_i : par j ≠ i := hpj_i
          have hpj_ne_t : par j ≠ sdTarget ht a i := by omega
          have hj_ne_i : j ≠ i := by
            have := par_lt hj0
            omega
          rw [siftDownAux_getD_of_not_desc ht fuel _ _ j hnd_j,
            siftDownAux_getD_of_not_desc ht fuel _ _ (par j) hnd_p,
            getD_swapL_other a i _ j hj_ne_i hj_ne_t,
            getD_swapL_other a i _ (par j) hpj_ne_i hpj_ne_t]
          exact h j hj0 hjlen (by omega)

/-- `extract` preserves the heap invariant. -/
theorem heapExtract_heapProp (ht : Ht) (l : List Int) (h : heapProp ht l) :
    heapProp ht (heapExtract ht l) := by
  unfold heapExtract
  split
  · exact h
  · rename_i hne
    rw [heapProp_iff] at h ⊢
    unfold siftDown
    apply siftDownAux_hpFrom ht _ _ 0 (by omega)
    intro j hj0 hjlen hij
    have hlen0 : ((l.set 0 (l.getD (l.length - 1) 0)).dropLast).length =
        l.length - 1 := by
      simp
    rw [hlen0] at hjlen
    have hpj_lt : par j < j := par_lt hj0
    have hgj : ((l.set 0 (l.getD (l.length - 1) 0)).dropLast).getD j 0 =
        l.getD j 0 := by
      rw [List.dropLast_eq_take, getD_take _ _ j (by simpa using hjlen),
        getD_set_ne l 0 j _ (by omega)]
    have hgp : ((l.set 0 (l.getD (l.length - 1) 0)).dropLast).getD (par j) 0 =
        l.getD (par j) 0 := by
      rw [List.dropLast_eq_take, getD_take _ _ (par j) (by simpa using by omega),
        getD_set_ne l 0 (par j) _ (by omega)]
    rw [hgj, hgp]
    exact h j hj0 (by omega) (by omega)

/-- The `buildHeap` loop: after processing indices `k-1, …, 0`, every
pair whose parent the loop has visited satisfies the relation. -/
theorem buildAux_hpFrom (ht : Ht) :
    ∀ (k : Nat) (a : List Int), hpFrom ht a k →
      hpFrom ht (buildAux ht a k) 0 := by
  intro k
  induction k with
  | zero => intro a h; rw [buildAux]; exact h
  | succ k ih =>
    intro a h
    rw [buildAux]
    apply ih
    unfold siftDown
    exact siftDownAux_hpFrom ht _ _ k (by omega) h

/-- `buildHeap` establishes the heap invariant on any array. -/
theorem buildHeap_heapProp (ht : Ht) (l : List Int) :
    heapProp ht (buildHeap ht l) := by
  rw [heapProp_iff]
  unfold buildHeap
  apply buildAux_hpFrom
  intro j hj0 hjlen hij
  exfalso
  unfold par at hij
  omega

/-- C3 counterexample: the claim quantifies over any completed insert,
but the app can run `insert` on an array that is not a heap for the
current comparator (toggling min/max does not re-heapify — the UI even
says "Click Build Heap to re-heapify").  Inserting 5 into the initial
array `[10,20,30,25,35,40,50]` under the max comparator completes and
leaves an array violating the max-heap relation at the root. -/
theorem c3_insert_not_heap_onto_non_heap :
    ¬ heapProp Ht.max (heapInsert Ht.max [10, 20, 30, 25, 35, 40, 50] 5) := by
  decide

/-- C3 (amended): if the array satisfies the heap invariant for the
current comparator, then a completed insert or extract preserves it,
and build-heap establishes it unconditionally on any array. -/
theorem c3_heap_invariant :
    (∀ (ht : Ht) (l : List Int) (v : Int), heapProp ht l →
      heapProp ht (heapInsert ht l v)) ∧
      (∀ (ht : Ht) (l : List Int), heapProp ht l →
        heapProp ht (heapExtract ht l)) ∧
      (∀ (ht : Ht) (l : List Int), heapProp ht (buildHeap ht l)) :=
  ⟨heapInsert_heapProp, heapExtract_heapProp, buildHeap_heapProp⟩

/-- C3 witness: the invariant theorems applied to the visualizer's
initial heap `[10,20,30,25,35,40,50]` (a min-heap). -/
theorem c3_heap_invariant_witness :
    heapProp Ht.min [10, 20, 30, 25, 35, 40, 50] ∧
      heapProp Ht.min (heapInsert Ht.min [10, 20, 30, 25, 35, 40, 50] 5) ∧
      heapProp Ht.min (heapExtract Ht.min [10, 20, 30, 25, 35, 40, 50]) :=
  ⟨by decide,
    c3_heap_invariant.1 Ht.min [10, 20, 30, 25, 35, 40, 50] 5 (by decide),
    c3_heap_invariant.2.1 Ht.min [10, 20, 30, 25, 35, 40, 50] (by decide)⟩

/-- The instrumented bubble pass computes the same list as the plain one. -/
theorem bubblePassStats_fst (b : Nat) :
    ∀ l : List Int, (bubblePassStats l b).1 = bubblePass l b := by
  induction b with
  | zero => intro l; rw [bubblePassStats, bubblePass]
  | succ b ih =>
    intro l
    match l with
    | [] => rw [bubblePassStats, bubblePass]
    | [x] => rw [bubblePassStats, bubblePass]
    | x :: y :: rest =>
      rw [bubblePassStats, bubblePass]
      split <;> simp [ih]

/-- The instrumented bubble run computes the same list as `bubbleSort`. -/
theorem bubbleAuxStats_fst :
    ∀ (k : Nat) (a : List Int) (cs : Nat × Nat),
      (bubbleAuxStats a k cs).1 = bubbleAux a k := by
  intro k
  induction k with
  | zero =>
    intro a cs
    rw [bubbleAuxStats.eq_def, bubbleAux]
    exact bubblePassStats_fst 0 a
  | succ k ih =>
    intro a cs
    rw [bubbleAuxStats.eq_def, bubbleAux]
    simp only
    rw [ih, bubblePassStats_fst]

/-- The published final array of a bubble run is `bubbleSort`. -/
theorem bubbleStats_fst (l : List Int) : (bubbleStats l).1 = bubbleSort l :=
  bubbleAuxStats_fst (l.length - 1) l (0, 0)

/-- C1: for every finite input sequence of numbers and every sort
algorithm offered (bubble, selection, insertion, merge, quick), when a
run completes without cancellation the resulting array is non-decreasing
and is a permutation (same multiset of values) of the input array. -/
theorem c1_sorts_sorted_perm (l : List Int) :
    ((bubbleSort l).Sorted (· ≤ ·) ∧ bubbleSort l ~ l) ∧
      ((selectionSort l).Sorted (· ≤ ·) ∧ selectionSort l ~ l) ∧
      ((insertionSort l).Sorted (· ≤ ·) ∧ insertionSort l ~ l) ∧
      ((mergeSort l).Sorted (· ≤ ·) ∧ mergeSort l ~ l) ∧
      ((quickSort l).Sorted (· ≤ ·) ∧ quickSort l ~ l) :=
  ⟨⟨bubbleSort_sorted l, bubbleSort_perm l⟩,
    ⟨selectionSort_sorted l, selectionSort_perm l⟩,
    ⟨insertionSort_sorted l, insertionSort_perm l⟩,
    ⟨mergeSort_sorted l, mergeSort_perm l⟩,
    ⟨quickSort_sorted l, quickSort_perm l⟩⟩

/-- C2: running bubble sort to completion on `[5,3,8,1]` produces
`[1,3,5,8]` with exactly 6 comparisons and 4 swaps, at every speed
setting (the speed never feeds the algorithm, only the delay). -/
theorem c2_bubble_5381 :
    bubbleStats [5, 3, 8, 1] = ([1, 3, 5, 8], 6, 4) ∧
      ∀ speed : Nat, bubbleRunAtSpeed speed [5, 3, 8, 1] = ([1, 3, 5, 8], 6, 4) :=
  ⟨by decide, fun _ => by unfold bubbleRunAtSpeed; decide⟩

/-- Nodup transfers along the append-singleton permutation. -/
theorem nodup_append_singleton (b : List Int) (v : Int) (hn : b.Nodup)
    (hv : v ∉ b) : (b ++ [v]).Nodup :=
  (List.perm_append_singleton v b).nodup_iff.mpr (List.nodup_cons.mpr ⟨hv, hn⟩)

/-- Reading a table of buckets at an in-range index yields a bucket. -/
theorem getD_bucket_mem (t : List (List Int)) :
    ∀ i, i < t.length → t.getD i [] ∈ t := by
  induction t with
  | nil => intro i hi; simp at hi
  | cons b bs ih =>
    intro i hi
    cases i with
    | zero => simp
    | succ j =>
      simp only [List.getD_cons_succ]
      exact List.mem_cons_of_mem b (ih j (by simpa using hi))

/-- C5 counterexample: `extract` on the empty heap returns before any
`setMessage`, so no underflow/empty message is surfaced — the message
state is left exactly as it was. -/
theorem c5_heap_extract_silent :
    heapExtractOp Ht.min ([], "") = ([], "") ∧
      heapExtractOp Ht.max ([], "previous") = ([], "previous") :=
  ⟨rfl, rfl⟩

/-- C5 (amended): pop, dequeue and heap-extract on the empty structure
are guarded no-ops (the structure is unchanged and, the functions being
total, nothing is thrown); pop and dequeue surface their underflow/empty
messages, while heap extract leaves the message unchanged. -/
theorem c5_empty_ops_guarded :
    (∀ msg : String, stackPop ([], msg) = ([], "Stack is empty!")) ∧
      (∀ msg : String,
        queueDequeue ([], msg) = ([], "Queue Underflow! Queue is empty.")) ∧
      (∀ (ht : Ht) (msg : String), heapExtractOp ht ([], msg) = ([], msg)) :=
  ⟨fun _ => rfl, fun _ => rfl, fun _ _ => rfl⟩

/-- C6: BFS from node 0 on the default graph (edges declared
`0-1,0-3,1-2,1-4,2-5,3-4,3-6,4-5,4-6`) dequeues the nodes in exactly
the order `0,1,3,2,4,6,5`, visiting no node twice. -/
theorem c6_bfs_visit_order :
    runBFS defaultEdges 0 20 = [0, 1, 3, 2, 4, 6, 5] ∧
      (runBFS defaultEdges 0 20).Nodup := by
  decide

/-- C9: inserting a key already present in its bucket returns a table
equal to the old one, insertion never duplicates a bucket entry, and the
initial table has no duplicates — so no bucket ever contains the same
value twice. -/
theorem c9_hash_insert_idempotent :
    (∀ (t : List (List Int)) (v : Int), v ∈ bucketOf t v →
      htInsert t v = some t) ∧
      (∀ (t : List (List Int)) (v : Int) (t' : List (List Int)),
        htInsert t v = some t' → (∀ b ∈ t, b.Nodup) → ∀ b ∈ t', b.Nodup) ∧
      (∀ b ∈ htInit, b.Nodup) := by
  refine ⟨?_, ?_, by decide⟩
  · intro t v hv
    unfold bucketOf at hv
    unfold htInsert
    split at hv
    · rename_i hcond
      rw [if_pos hcond, if_pos hv]
    · simp at hv
  · intro t v t' hins hnd b hb
    unfold htInsert at hins
    split at hins
    · rename_i hcond
      rw [Option.some_inj] at hins
      subst hins
      split at hb
      · exact hnd b hb
      · rename_i hnotin
        rcases List.mem_or_eq_of_mem_set hb with hmem | rfl
        · exact hnd b hmem
        · exact nodup_append_singleton _ v
            (hnd _ (getD_bucket_mem t _ hcond.2)) hnotin
    · exact absurd hins (by simp)

/-- C9 witness: key 15 is already in bucket 5 of the initial table, and
inserting it again returns the table unchanged. -/
theorem c9_hash_insert_idempotent_witness :
    15 ∈ bucketOf htInit 15 ∧ htInsert htInit 15 = some htInit :=
  ⟨by decide, c9_hash_insert_idempotent.1 htInit 15 (by decide)⟩

/-- Members of an insertion result are old members or the new value. -/
theorem inorder_insertBST_mem (v : Int) :
    ∀ (t : BTree) (y : Int), y ∈ inorder (insertBST t v) →
      y ∈ inorder t ∨ y = v := by
  intro t
  induction t with
  | leaf =>
    intro y hy
    simp [insertBST, inorder] at hy
    exact Or.inr hy
  | node x l r ihl ihr =>
    intro y hy
    rw [insertBST] at hy
    split at hy
    · simp only [inorder, List.append_assoc, List.mem_append] at hy ⊢
      rcases hy with hy | hy
      · rcases ihl y hy with h | h
        · exact Or.inl (Or.inl h)
        · exact Or.inr h
      · exact Or.inl (Or.inr hy)
    · split at hy
      · simp only [inorder, List.append_assoc, List.mem_append] at hy ⊢
        rcases hy with hy | hy | hy
        · exact Or.inl (Or.inl hy)
        · exact Or.inl (Or.inr (Or.inl hy))
        · rcases ihr y hy with h | h
          · exact Or.inl (Or.inr (Or.inr h))
          · exact Or.inr h
      · exact Or.inl hy

/-- `insertBST` preserves the BST invariant. -/
theorem insertBST_isBST (v : Int) :
    ∀ t : BTree, isBST t → isBST (insertBST t v) := by
  intro t
  induction t with
  | leaf =>
    intro _
    refine ⟨?_, ?_, trivial, trivial⟩ <;> intro y hy <;> simp [inorder] at hy
  | node x l r ihl ihr =>
    intro h
    obtain ⟨hl, hr, hbl, hbr⟩ := h
    rw [insertBST]
    split
    · rename_i hvx
      refine ⟨?_, hr, ihl hbl, hbr⟩
      intro y hy
      rcases inorder_insertBST_mem v l y hy with hmem | rfl
      · exact hl y hmem
      · exact hvx
    · split
      · rename_i hxv
        refine ⟨hl, ?_, hbl, ihr hbr⟩
        intro y hy
        rcases inorder_insertBST_mem v r y hy with hmem | rfl
        · exact hr y hmem
        · exact hxv
      · exact ⟨hl, hr, hbl, hbr⟩

/-- The inorder traversal of a BST is strictly increasing. -/
theorem isBST_inorder_sorted_lt :
    ∀ t : BTree, isBST t → (inorder t).Sorted (· < ·) := by
  intro t
  induction t with
  | leaf => intro _; exact List.sorted_nil
  | node x l r ihl ihr =>
    intro h
    obtain ⟨hl, hr, hbl, hbr⟩ := h
    rw [inorder, List.append_assoc, List.Sorted, List.pairwise_append]
    refine ⟨ihl hbl, ?_, ?_⟩
    · rw [List.pairwise_append]
      refine ⟨List.pairwise_singleton _ _, ihr hbr, ?_⟩
      intro a ha b hb
      rw [List.mem_singleton] at ha
      subst ha
      exact hr b hb
    · intro a ha b hb
      rw [List.mem_append, List.mem_singleton] at hb
      rcases hb with rfl | hb
      · exact hl a ha
      · exact lt_trans (hl a ha) (hr b hb)

/-- Every tree the visualizer builds satisfies the BST invariant. -/
theorem buildBST_isBST (vals : List Int) : isBST (buildBST vals) := by
  have hgen : ∀ (vs : List Int) (t : BTree), isBST t →
      isBST (vs.foldl insertBST t) := by
    intro vs
    induction vs with
    | nil => exact fun t h => h
    | cons v vs ih => exact fun t h => ih _ (insertBST_isBST v t h)
  exact hgen vals BTree.leaf trivial

/-- C10 counterexample: on a tree violating the BST ordering (value 7
in the left subtree of 5), inserting the already-present 7 walks right
and creates a second node 7, so the tree changes and holds a duplicate.
(Such a tree is not reachable in the visualizer, which only builds trees
with `insertBST`.) -/
theorem c10_duplicate_insert_changes_non_bst :
    7 ∈ inorder (BTree.node 5 (BTree.node 7 BTree.leaf BTree.leaf) BTree.leaf) ∧
      insertBST (BTree.node 5 (BTree.node 7 BTree.leaf BTree.leaf) BTree.leaf) 7 ≠
        BTree.node 5 (BTree.node 7 BTree.leaf BTree.leaf) BTree.leaf := by
  decide

/-- C10 (amended): on every tree satisfying the BST ordering invariant —
in particular every tree the visualizer builds, since they arise from
`insertBST` alone — inserting a value already present returns the tree
unchanged, and consequently a built tree never contains duplicates. -/
theorem c10_bst_insert_duplicate_identity :
    (∀ (t : BTree) (v : Int), isBST t → v ∈ inorder t → insertBST t v = t) ∧
      ∀ vals : List Int, (inorder (buildBST vals)).Nodup := by
  constructor
  · intro t
    induction t with
    | leaf => intro v _ hv; simp [inorder] at hv
    | node x l r ihl ihr =>
      intro v h hv
      obtain ⟨hl, hr, hbl, hbr⟩ := h
      rw [inorder, List.append_assoc, List.mem_append, List.mem_append,
        List.mem_singleton] at hv
      rw [insertBST]
      rcases hv with hv | hv | hv
      · rw [if_pos (hl v hv), ihl v hbl hv]
      · subst hv
        rw [if_neg (lt_irrefl v), if_neg (lt_irrefl v)]
      · have hxv : x < v := hr v hv
        rw [if_neg (by omega), if_pos hxv, ihr v hbr hv]
  · intro vals
    exact List.Pairwise.imp (fun h => ne_of_lt h)
      (isBST_inorder_sorted_lt _ (buildBST_isBST vals))

/-- C10 witness: inserting the already-present 30 into the BST built
from `[50, 30, 70]` returns it unchanged. -/
theorem c10_bst_insert_duplicate_witness :
    isBST (buildBST [50, 30, 70]) ∧ 30 ∈ inorder (buildBST [50, 30, 70]) ∧
      insertBST (buildBST [50, 30, 70]) 30 = buildBST [50, 30, 70] :=
  ⟨by decide, by decide,
    c10_bst_insert_duplicate_identity.1 (buildBST [50, 30, 70]) 30
      (by decide) (by decide)⟩

/-- C7: the inorder traversal of every tree the visualizer builds is
non-decreasing; in the preorder of any tree, every subtree occurrence is
listed with its root value immediately before its subtrees' values; in
the postorder, with its root value immediately after them. -/
theorem c7_bst_traversal_laws :
    (∀ vals : List Int, (inorder (buildBST vals)).Sorted (· ≤ ·)) ∧
      (∀ (t s : BTree) (x : Int) (l r : BTree), Subtree s t →
        s = BTree.node x l r →
        ∃ xs ys, preorder t = xs ++ ([x] ++ preorder l ++ preorder r) ++ ys) ∧
      (∀ (t s : BTree) (x : Int) (l r : BTree), Subtree s t →
        s = BTree.node x l r →
        ∃ xs ys,
          postorder t = xs ++ (postorder l ++ postorder r ++ [x]) ++ ys) := by
  refine ⟨?_, ?_, ?_⟩
  · intro vals
    exact List.Pairwise.imp (fun h => le_of_lt h)
      (isBST_inorder_sorted_lt _ (buildBST_isBST vals))
  · intro t s x l r hsub hseq
    induction hsub with
    | refl =>
      subst hseq
      exact ⟨[], [], by simp [preorder]⟩
    | left x' l' r' hs ih =>
      obtain ⟨xs, ys, heq⟩ := ih
      exact ⟨[x'] ++ xs, ys ++ preorder r', by simp [preorder, heq]⟩
    | right x' l' r' hs ih =>
      obtain ⟨xs, ys, heq⟩ := ih
      exact ⟨[x'] ++ preorder l' ++ xs, ys, by simp [preorder, heq]⟩
  · intro t s x l r hsub hseq
    induction hsub with
    | refl =>
      subst hseq
      exact ⟨[], [], by simp [postorder]⟩
    | left x' l' r' hs ih =>
      obtain ⟨xs, ys, heq⟩ := ih
      exact ⟨xs, ys ++ postorder r' ++ [x'], by simp [postorder, heq]⟩
    | right x' l' r' hs ih =>
      obtain ⟨xs, ys, heq⟩ := ih
      exact ⟨postorder l' ++ xs, ys ++ [x'], by simp [postorder, heq]⟩

/-- C7 witness: the laws applied to the tree built from `[50, 30, 70]`
and its left-subtree occurrence `node 30`. -/
theorem c7_bst_traversal_laws_witness :
    (inorder (buildBST [50, 30, 70])).Sorted (· ≤ ·) ∧
      (∃ xs ys, preorder (BTree.node 50 (BTree.node 30 BTree.leaf BTree.leaf)
          (BTree.node 70 BTree.leaf BTree.leaf)) =
        xs ++ ([30] ++ preorder BTree.leaf ++ preorder BTree.leaf) ++ ys) ∧
      (∃ xs ys, postorder (BTree.node 50 (BTree.node 30 BTree.leaf BTree.leaf)
          (BTree.node 70 BTree.leaf BTree.leaf)) =
        xs ++ (postorder BTree.leaf ++ postorder BTree.leaf ++ [30]) ++ ys) :=
  ⟨c7_bst_traversal_laws.1 [50, 30, 70],
    c7_bst_traversal_laws.2.1 _ _ 30 BTree.leaf BTree.leaf
      (Subtree.left _ 50 _ (BTree.node 70 BTree.leaf BTree.leaf)
        (Subtree.refl _)) rfl,
    c7_bst_traversal_laws.2.2 _ _ 30 BTree.leaf BTree.leaf
      (Subtree.left _ 50 _ (BTree.node 70 BTree.leaf BTree.leaf)
        (Subtree.refl _)) rfl⟩


/-- `ltD d m = true` exactly when `d` holds a number strictly below `m`. -/
theorem ltD_true_iff (d : Option DVal) (m : DVal) :
    ltD d m = true ↔ ∃ a : Int, d = some (DVal.val a) ∧ dLt (DVal.val a) m := by
  rcases d with _ | dv
  · simp [ltD]
  · cases dv <;> cases m <;> simp [ltD, dLt]

theorem dLe_refl (m : DVal) : dLe m m := by
  cases m <;> simp [dLe]

theorem dLe_of_dLe_of_dLt {x y z : DVal} (h1 : dLe x y) (h2 : dLt y z) :
    dLe x z := by
  cases x <;> cases y <;> cases z <;> simp_all [dLe, dLt] <;> omega

theorem dLt_trans' {x y z : DVal} (h1 : dLt x y) (h2 : dLt y z) : dLt x z := by
  cases x <;> cases y <;> cases z <;> simp_all [dLt] <;> omega

theorem dGt_of_dLt_val {r : DVal} {a : Int} (h : dLt r (DVal.val a)) :
    dGt (some (DVal.val a)) r := by
  cases r <;> simp_all [dLt, dGt]

theorem ltD_false_of_dLe {r : DVal} {a : Int} (h : dLe r (DVal.val a)) :
    ltD (some (DVal.val a)) r = false := by
  cases r <;> simp_all [dLe, ltD]

theorem ltD_false_mono {d : Option DVal} {m r : DVal}
    (h1 : ltD d m = false) (h2 : dLe r m) : ltD d r = false := by
  rcases d with _ | dv
  · rfl
  · cases dv <;> cases m <;> cases r <;> simp_all [ltD, dLe] <;> omega

theorem dGt_of_not_ltD_of_dLt {d : Option DVal} {m r : DVal}
    (h1 : ltD d m = false) (h2 : dLt r m) : dGt d r := by
  rcases d with _ | dv
  · trivial
  · cases dv <;> cases m <;> cases r <;> simp_all [ltD, dLt, dGt] <;> omega

/-- One step of the node-selection scan. -/
theorem selectFold_cons (vis : List Nat) (dist : Nat → Option DVal) (n : Nat)
    (ns : List Nat) (acc : Option Nat × DVal) :
    selectFold vis dist (n :: ns) acc =
      selectFold vis dist ns
        (if n ∉ vis ∧ ltD (dist n) acc.2 then (some n, (dist n).getD DVal.inf)
         else acc) := by
  unfold selectFold
  rw [List.foldl_cons]

/-- Invariant of the Dijkstra node-selection scan: starting from a
well-formed accumulator, the scan returns an unvisited node holding the
running minimum; no scanned unvisited node is strictly below the final
minimum; and if the result was picked inside the scanned list, the list
splits at the result with every earlier unvisited node strictly above
the final minimum (first occurrence wins). -/
theorem selectFold_spec (vis : List Nat) (dist : Nat → Option DVal) :
    ∀ (ns : List Nat) (b : Option Nat) (m : DVal),
      (∀ u, b = some u → u ∉ vis ∧
        ∃ mv : Int, m = DVal.val mv ∧ dist u = some (DVal.val mv)) →
      (∀ u, (selectFold vis dist ns (b, m)).1 = some u → u ∉ vis ∧
        ∃ mv : Int, (selectFold vis dist ns (b, m)).2 = DVal.val mv ∧
          dist u = some (DVal.val mv)) ∧
      dLe (selectFold vis dist ns (b, m)).2 m ∧
      (∀ n ∈ ns, n ∉ vis →
        ltD (dist n) (selectFold vis dist ns (b, m)).2 = false) ∧
      (∀ u, (selectFold vis dist ns (b, m)).1 = some u →
        (b = some u ∧ (selectFold vis dist ns (b, m)).2 = m) ∨
        ∃ pre post, ns = pre ++ u :: post ∧
          dLt (selectFold vis dist ns (b, m)).2 m ∧
          ∀ n ∈ pre, n ∉ vis → dGt (dist n) (selectFold vis dist ns (b, m)).2) := by
  intro ns
  induction ns with
  | nil =>
    intro b m hb
    refine ⟨hb, dLe_refl m, ?_, ?_⟩
    · intro n hn
      simp at hn
    · intro u hu
      exact Or.inl ⟨hu, rfl⟩
  | cons n ns ih =>
    intro b m hb
    by_cases hg : n ∉ vis ∧ ltD (dist n) m = true
    · obtain ⟨nv, hdist, hnv_lt⟩ := (ltD_true_iff (dist n) m).mp hg.2
      have hstep : selectFold vis dist (n :: ns) (b, m) =
          selectFold vis dist ns (some n, DVal.val nv) := by
        rw [selectFold_cons]
        dsimp only
        rw [if_pos hg, hdist]
        rfl
      have hacc : ∀ u, (some n : Option Nat) = some u → u ∉ vis ∧
          ∃ mv : Int, DVal.val nv = DVal.val mv ∧
            dist u = some (DVal.val mv) := by
        intro u hu
        rw [Option.some_inj] at hu
        subst hu
        exact ⟨hg.1, nv, rfl, hdist⟩
      obtain ⟨ih1, ih2, ih3, ih4⟩ := ih (some n) (DVal.val nv) hacc
      rw [hstep]
      refine ⟨ih1, dLe_of_dLe_of_dLt ih2 hnv_lt, ?_, ?_⟩
      · intro x hx hxvis
        rcases List.mem_cons.mp hx with rfl | hx'
        · rw [hdist]
          exact ltD_false_of_dLe ih2
        · exact ih3 x hx' hxvis
      · intro u hu
        rcases ih4 u hu with ⟨heq, hres⟩ | ⟨pre, post, hsplit, hlt, hpre⟩
        · rw [Option.some_inj] at heq
          subst heq
          refine Or.inr ⟨[], ns, rfl, ?_, ?_⟩
          · rw [hres]
            exact hnv_lt
          · intro x hx
            simp at hx
        · refine Or.inr ⟨n :: pre, post, by simp [hsplit], dLt_trans' hlt hnv_lt, ?_⟩
          intro x hx hxvis
          rcases List.mem_cons.mp hx with rfl | hx'
          · rw [hdist]
            exact dGt_of_dLt_val hlt
          · exact hpre x hx' hxvis
    · have hstep : selectFold vis dist (n :: ns) (b, m) =
          selectFold vis dist ns (b, m) := by
        rw [selectFold_cons]
        dsimp only
        rw [if_neg hg]
      obtain ⟨ih1, ih2, ih3, ih4⟩ := ih b m hb
      rw [hstep]
      refine ⟨ih1, ih2, ?_, ?_⟩
      · intro x hx hxvis
        rcases List.mem_cons.mp hx with rfl | hx'
        · have hfalse : ltD (dist x) m = false := by
            by_contra hc
            exact hg ⟨hxvis, by simpa using hc⟩
          exact ltD_false_mono hfalse ih2
        · exact ih3 x hx' hxvis
      · intro u hu
        rcases ih4 u hu with h | ⟨pre, post, hsplit, hlt, hpre⟩
        · exact Or.inl h
        · refine Or.inr ⟨n :: pre, post, by simp [hsplit], hlt, ?_⟩
          intro x hx hxvis
          rcases List.mem_cons.mp hx with rfl | hx'
          · have hfalse : ltD (dist x) m = false := by
              by_contra hc
              exact hg ⟨hxvis, by simpa using hc⟩
            exact dGt_of_not_ltD_of_dLt hfalse hlt
          · exact hpre x hx' hxvis

/-- C8 counterexample: in the default graph extended by
`addEdge(0,8,1)` then `addEdge(0,7,1)` (node scan order
`0,1,2,3,4,5,6,8,7`), the second iteration finalizes node 8 although
node 7 is also unvisited at the same minimal distance 1 and has the
lower id: ties break by scan (insertion) order, not by lowest id. -/
theorem c8_tie_broken_by_scan_not_id :
    (dijkstraOrder exNodes exEdges 0).take 2 = [0, 8] ∧
      (selectMin exNodes
        (dijkstraAux exNodes exEdges 1 ([], initDist exNodes 0, [])).1
        (dijkstraAux exNodes exEdges 1 ([], initDist exNodes 0, [])).2.1).1 =
        some 8 ∧
      7 ∉ (dijkstraAux exNodes exEdges 1 ([], initDist exNodes 0, [])).1 ∧
      (dijkstraAux exNodes exEdges 1 ([], initDist exNodes 0, [])).2.1 7 =
        some (DVal.val 1) ∧
      (dijkstraAux exNodes exEdges 1 ([], initDist exNodes 0, [])).2.1 8 =
        some (DVal.val 1) ∧
      (7 : Nat) < 8 := by
  decide

/-- C8 (amended): in every iteration (each iteration of `dijkstraAux`
finalizes exactly the node `selectMin` returns), the node selected is an
unvisited node attaining the minimum current distance over all unvisited
nodes, and it is the first such node in the nodes-array scan order:
every unvisited node listed before it has a strictly larger distance.
When the nodes array is sorted by increasing id — as the default graph's
is — ties therefore break to the lowest node id. -/
theorem c8_dijkstra_selects_first_min :
    ∀ (ns vis : List Nat) (dist : Nat → Option DVal) (u : Nat),
      (selectMin ns vis dist).1 = some u →
      ∃ (mv : Int) (pre post : List Nat),
        u ∉ vis ∧ dist u = some (DVal.val mv) ∧
        (selectMin ns vis dist).2 = DVal.val mv ∧
        ns = pre ++ u :: post ∧
        (∀ n ∈ ns, n ∉ vis → ltD (dist n) (DVal.val mv) = false) ∧
        (∀ n ∈ pre, n ∉ vis → dGt (dist n) (DVal.val mv)) ∧
        (ns.Sorted (· < ·) → ∀ n ∈ ns, n ∉ vis →
          dist n = some (DVal.val mv) → u ≤ n) := by
  intro ns vis dist u hu
  obtain ⟨h1, _, h3, h4⟩ := selectFold_spec vis dist ns none DVal.inf
    (fun u h => by exact absurd h (by simp))
  obtain ⟨huvis, mv, hres, hdistu⟩ := h1 u hu
  rcases h4 u hu with ⟨hcontra, _⟩ | ⟨pre, post, hsplit, _, hpre⟩
  · exact absurd hcontra (by simp)
  refine ⟨mv, pre, post, huvis, hdistu, hres, hsplit, ?_, ?_, ?_⟩
  · intro n hn hnvis
    have := h3 n hn hnvis
    rwa [hres] at this
  · intro n hn hnvis
    have := hpre n hn hnvis
    rwa [hres] at this
  · intro hsort n hn hnvis hndist
    rw [hsplit, List.mem_append, List.mem_cons] at hn
    rcases hn with hn | rfl | hn
    · exfalso
      have := hpre n hn hnvis
      rw [hres, hndist] at this
      exact lt_irrefl mv this
    · exact le_refl _
    · rw [hsplit] at hsort
      have hupost := (List.pairwise_append.mp hsort).2.1
      exact le_of_lt (List.rel_of_sorted_cons hupost n hn)


theorem countComp_nil : countComp [] = 0 := rfl

theorem countSwap_nil : countSwap [] = 0 := rfl

theorem countComp_cancel : countComp [Ev.cancelObs] = 0 := by decide

theorem countSwap_cancel : countSwap [Ev.cancelObs] = 0 := by decide

theorem countComp_append (a b : List Ev) :
    countComp (a ++ b) = countComp a + countComp b :=
  List.count_append _ _ _

theorem countSwap_append (a b : List Ev) :
    countSwap (a ++ b) = countSwap a + countSwap b :=
  List.count_append _ _ _

/-- A trace without an observed cancellation has nothing after one. -/
theorem postCancel_of_not_mem :
    ∀ evs : List Ev, Ev.cancelObs ∉ evs → postCancel evs = [] := by
  intro evs
  induction evs with
  | nil => intro _; rfl
  | cons e rest ih =>
    intro h
    rw [List.mem_cons, not_or] at h
    match e, h with
    | Ev.comp, h => exact ih h.2
    | Ev.swap, h => exact ih h.2
    | Ev.cancelObs, h => exact absurd rfl h.1

/-- `postCancel` skips a clean prefix. -/
theorem postCancel_append_of_not_mem :
    ∀ (a b : List Ev), Ev.cancelObs ∉ a →
      postCancel (a ++ b) = postCancel b := by
  intro a
  induction a with
  | nil => intro b _; rfl
  | cons e rest ih =>
    intro b h
    rw [List.mem_cons, not_or] at h
    match e, h with
    | Ev.comp, h => exact ih b h.2
    | Ev.swap, h => exact ih b h.2
    | Ev.cancelObs, h => exact absurd rfl h.1

/-- `postCancel` cuts at the first observed cancellation. -/
theorem postCancel_append_cancelObs :
    ∀ (a b : List Ev), Ev.cancelObs ∉ a →
      postCancel (a ++ Ev.cancelObs :: b) = b := by
  intro a
  induction a with
  | nil => intro b _; rfl
  | cons e rest ih =>
    intro b h
    rw [List.mem_cons, not_or] at h
    match e, h with
    | Ev.comp, h => exact ih b h.2
    | Ev.swap, h => exact ih b h.2
    | Ev.cancelObs, h => exact absurd rfl h.1

/-- An inner bubble pass either never observes the cancellation, or its
trace ends with the single observation and the flag stays set. -/
theorem bTrInner_shape (cAt : Nat) :
    ∀ (rem : Nat) (a : List Int) (d j : Nat),
      Ev.cancelObs ∉ (bTrInner cAt rem a d j).1 ∨
      (∃ evs0, (bTrInner cAt rem a d j).1 = evs0 ++ [Ev.cancelObs] ∧
        Ev.cancelObs ∉ evs0 ∧ cAt ≤ (bTrInner cAt rem a d j).2.2) := by
  intro rem
  induction rem with
  | zero =>
    intro a d j
    rw [bTrInner]
    exact Or.inl (by simp)
  | succ rem ih =>
    intro a d j
    rw [bTrInner]
    split
    · rename_i hc
      exact Or.inr ⟨[], rfl, by simp, hc⟩
    · split
      · rcases ih (swapL a j (j + 1)) (d + 1) (j + 1) with h | ⟨evs0, heq, hnm, hd⟩
        · exact Or.inl (by simp [h])
        · refine Or.inr ⟨Ev.comp :: Ev.swap :: evs0, by simp [heq], by simp [hnm], hd⟩
      · rcases ih a (d + 1) (j + 1) with h | ⟨evs0, heq, hnm, hd⟩
        · exact Or.inl (by simp [h])
        · refine Or.inr ⟨Ev.comp :: evs0, by simp [heq], by simp [hnm], hd⟩

/-- Once the flag is set, the outer bubble loop emits at most the
observation event. -/
theorem bTrOuter_stopped (cAt n : Nat) (rem : Nat) (a : List Int) (d : Nat)
    (h : cAt ≤ d) :
    (bTrOuter cAt n rem a d).1 = [] ∨
      (bTrOuter cAt n rem a d).1 = [Ev.cancelObs] := by
  cases rem with
  | zero => exact Or.inl rfl
  | succ rem =>
    rw [bTrOuter, if_pos h]
    exact Or.inr rfl

/-- After the cancellation flag is observed, a bubble-sort run performs
no further comparison and no further swap. -/
theorem bTrOuter_postCancel (cAt n : Nat) :
    ∀ (rem : Nat) (a : List Int) (d : Nat),
      countComp (postCancel (bTrOuter cAt n rem a d).1) = 0 ∧
      countSwap (postCancel (bTrOuter cAt n rem a d).1) = 0 := by
  intro rem
  induction rem with
  | zero =>
    intro a d
    rw [bTrOuter]
    exact ⟨rfl, rfl⟩
  | succ rem ih =>
    intro a d
    rw [bTrOuter]
    split
    · exact ⟨rfl, rfl⟩
    · rename_i hc
      dsimp only
      rcases bTrInner_shape cAt (n - (n - (rem + 1)) - 1) a d 0 with
        h | ⟨evs0, heq, hnm, hd⟩
      · rw [postCancel_append_of_not_mem _ _ h]
        exact ih _ _
      · rw [heq, List.append_assoc, List.singleton_append,
          postCancel_append_cancelObs _ _ hnm]
        rcases bTrOuter_stopped cAt n rem
          (bTrInner cAt (n - (n - (rem + 1)) - 1) a d 0).2.1
          (bTrInner cAt (n - (n - (rem + 1)) - 1) a d 0).2.2 hd with
          h2 | h2 <;> rw [h2] <;> exact ⟨rfl, rfl⟩

/-- An inner selection scan either never observes the cancellation, or
its trace ends with the single observation and the flag stays set. -/
theorem sTrInner_shape (cAt : Nat) :
    ∀ (rem : Nat) (a : List Int) (d j minI : Nat),
      Ev.cancelObs ∉ (sTrInner cAt rem a d j minI).1 ∨
      (∃ evs0, (sTrInner cAt rem a d j minI).1 = evs0 ++ [Ev.cancelObs] ∧
        Ev.cancelObs ∉ evs0 ∧ cAt ≤ (sTrInner cAt rem a d j minI).2.2) := by
  intro rem
  induction rem with
  | zero =>
    intro a d j minI
    rw [sTrInner]
    exact Or.inl (by simp)
  | succ rem ih =>
    intro a d j minI
    rw [sTrInner]
    split
    · rename_i hcnd
      exact Or.inr ⟨[], rfl, by simp, hcnd⟩
    · dsimp only
      rcases ih a (d + 1) (j + 1)
        (if a[j]?.getD 0 < a[minI]?.getD 0 then j else minI) with
        h | ⟨evs0, heq, hnm, hd⟩
      · exact Or.inl (by simp [h])
      · exact Or.inr ⟨Ev.comp :: evs0, by simp [heq], by simp [hnm],
          by simpa using hd⟩

/-- Once the flag is set, the outer selection loop emits at most the
observation event. -/
theorem sTrOuter_stopped (cAt n : Nat) (rem : Nat) (a : List Int) (d : Nat)
    (h : cAt ≤ d) :
    (sTrOuter cAt n rem a d).1 = [] ∨
      (sTrOuter cAt n rem a d).1 = [Ev.cancelObs] := by
  cases rem with
  | zero => exact Or.inl rfl
  | succ rem =>
    rw [sTrOuter, if_pos h]
    exact Or.inr rfl

/-- After the cancellation flag is observed, a selection-sort run
performs no further comparison, but may still perform the one pending
swap of the partially scanned minimum. -/
theorem sTrOuter_postCancel (cAt n : Nat) :
    ∀ (rem : Nat) (a : List Int) (d : Nat),
      countComp (postCancel (sTrOuter cAt n rem a d).1) = 0 ∧
      countSwap (postCancel (sTrOuter cAt n rem a d).1) ≤ 1 := by
  intro rem
  induction rem with
  | zero =>
    intro a d
    rw [sTrOuter]
    exact ⟨rfl, by simp [postCancel, countSwap]⟩
  | succ rem ih =>
    intro a d
    rw [sTrOuter]
    split
    · exact ⟨rfl, by simp [postCancel, countSwap]⟩
    · rename_i hcnd
      dsimp only
      set i := n - (rem + 1) with hi
      set r := sTrInner cAt (n - (i + 1)) a d (i + 1) i with hr
      set sw := if r.2.1 ≠ i then ([Ev.swap], swapL a i r.2.1) else ([], a)
        with hsw
      have hsw_clean : Ev.cancelObs ∉ sw.1 := by
        rw [hsw]
        split <;> simp
      have hsw_comp : countComp sw.1 = 0 := by
        rw [hsw]
        split <;> rfl
      have hsw_swap : countSwap sw.1 ≤ 1 := by
        rw [hsw]
        split
        · exact le_refl 1
        · exact Nat.zero_le 1
      rcases sTrInner_shape cAt (n - (i + 1)) a d (i + 1) i with
        h | ⟨evs0, heq, hnm, hd⟩
      · rw [postCancel_append_of_not_mem (r.1 ++ sw.1) _ (by
          rw [List.mem_append]
          exact fun hmem => hmem.elim (fun h' => h h') (fun h' => hsw_clean h'))]
        exact ih _ _
      · rw [heq, List.append_assoc, List.append_assoc, List.singleton_append,
          postCancel_append_cancelObs _ _ hnm, countComp_append,
          countSwap_append]
        rcases sTrOuter_stopped cAt n rem sw.2 r.2.2 hd with h2 | h2 <;> rw [h2]
        · exact ⟨by simpa [countComp_nil] using hsw_comp,
            by simpa [countSwap_nil] using hsw_swap⟩
        · exact ⟨by simpa [countComp_cancel] using hsw_comp,
            by simpa [countSwap_cancel] using hsw_swap⟩

/-- C4 counterexample: run selection sort on `[3,1,2]` and request
cancellation during the first delay (inside the minimum scan of the
first pass).  The scan loop observes the flag and exits, but the code
after it still swaps `a[0]` and `a[min]`: the trace shows a swap event
after the first cancellation observation, the array mutates from
`[3,1,2]` to `[1,3,2]` after the flag was observed, and the published
swap counter advances from 0 to 1. -/
theorem c4_selection_swaps_after_cancel :
    postCancel (selTrace 1 [3, 1, 2]).1 = [Ev.swap, Ev.cancelObs] ∧
      (selTrace 1 [3, 1, 2]).2.1 = [1, 3, 2] ∧
      countSwap (postCancel (selTrace 1 [3, 1, 2]).1) = 1 := by
  decide

/-- C4 (amended): cancellation is observed at the next loop-boundary
check of the flag and the run then terminates; in bubble sort no
comparison and no swap (hence no counter increment and no array
mutation) occurs after the observation, but in selection sort the
pending swap of the partially scanned minimum — together with its
counter increment — may still be applied once after the observation. -/
theorem c4_cancellation_boundary :
    (∀ (cancelAt : Nat) (l : List Int),
      countComp (postCancel (bubbleTrace cancelAt l).1) = 0 ∧
        countSwap (postCancel (bubbleTrace cancelAt l).1) = 0) ∧
      ∀ (cancelAt : Nat) (l : List Int),
        countComp (postCancel (selTrace cancelAt l).1) = 0 ∧
          countSwap (postCancel (selTrace cancelAt l).1) ≤ 1 :=
  ⟨fun cancelAt l => bTrOuter_postCancel cancelAt l.length l.length l 0,
    fun cancelAt l => sTrOuter_postCancel cancelAt l.length l.length l 0⟩


/-- Witness for the selection property at a concrete state: on the
example graph's node array, from the start state, the scan selects
node 0. -/
theorem c8_dijkstra_selects_first_min_witness :
    (selectMin exNodes [] (initDist exNodes 0)).1 = some 0 ∧
      ∃ (mv : Int) (pre post : List Nat),
        0 ∉ ([] : List Nat) ∧
        initDist exNodes 0 0 = some (DVal.val mv) ∧
        (selectMin exNodes [] (initDist exNodes 0)).2 = DVal.val mv ∧
        exNodes = pre ++ 0 :: post ∧
        (∀ n ∈ exNodes, n ∉ ([] : List Nat) →
          ltD (initDist exNodes 0 n) (DVal.val mv) = false) ∧
        (∀ n ∈ pre, n ∉ ([] : List Nat) →
          dGt (initDist exNodes 0 n) (DVal.val mv)) ∧
        (exNodes.Sorted (· < ·) → ∀ n ∈ exNodes, n ∉ ([] : List Nat) →
          initDist exNodes 0 n = some (DVal.val mv) → 0 ≤ n) :=
  ⟨by decide,
    c8_dijkstra_selects_first_min exNodes [] (initDist exNodes 0) 0 (by decide)⟩

end DSA

